import Mathlib

/-!
Verification development for the SpeechPractice alignment and scoring engine.

The definitions below are shallow embeddings of the Python sources:
  - transcribe_worker.py   (TranscribeWorker.clean_text, _scale_score, run)
  - alignment_utils.py     (tokenize_with_spans, _align_tokens, _append_runs,
                            _char_level_spans_for_substitution,
                            compute_error_spans_for_display)
  - transcript_utils.py    (build_transcript_from_segments)
  - transcription_service.py (_compute_cer, _norm_conf_from_logprob,
                            _augment_segments_and_fluency)
  - SpeechPractice.py      (SpeechPracticeApp._jump_to_transcript_char)

Third-party library behaviour invoked by that code is embedded as well:
  - jiwer.wer / jiwer.cer: standard unit-cost Levenshtein word/char error rate;
    jiwer raises ValueError when the (transformed) reference is empty.
  - difflib.SequenceMatcher (CPython): b2j index map with autojunk purge of
    popular elements for len(b) >= 200, find_longest_match,
    get_matching_blocks, get_opcodes, with isjunk = None (so the bjunk set is
    empty and the junk-extension loops of find_longest_match never fire).

Machine floats of the Python sources are modelled as exact rationals where the
arithmetic is rational (WER, CER, clarity, fluency) and as real numbers for
the logistic score function (math.exp).  Python str is modelled over its
character list; Unicode-sensitive predicates (str.lower, \w, \s) are modelled
on their ASCII behaviour, which is all the claims exercise.
-/

/-! ## Python character predicates (ASCII fragment of \s, \w, str.lower) -/

/-- Python regex class \s (whitespace), ASCII fragment. -/
def pyIsSpace (c : Char) : Bool :=
  c = ' ' || c = '\t' || c = '\n' || c = '\x0d' || c = '\x0b' || c = '\x0c'

/-- Python regex class \w (word character: letter, digit, underscore), ASCII
fragment. -/
def pyIsWord (c : Char) : Bool :=
  (('a' ≤ c && c ≤ 'z') || ('A' ≤ c && c ≤ 'Z') || ('0' ≤ c && c ≤ '9')
    || c = '_')

/-- Python str.lower, ASCII fragment (Char.toLower lowers A-Z). -/
def pyLower (s : String) : String := ⟨s.data.map Char.toLower⟩

/-- Collapse every maximal run of whitespace to a single space:
re.sub(r"\s+", " ", text).  The first argument is structural fuel (one unit
per character consumed); with fuel >= length the zero-fuel branch is
unreachable. -/
def collapseWsF : Nat → List Char → List Char
  | _, [] => []
  | 0, _ :: _ => []
  | f + 1, c :: cs =>
    if pyIsSpace c then ' ' :: collapseWsF f (cs.dropWhile pyIsSpace)
    else c :: collapseWsF f cs

/-- re.sub(r"\s+", " ", text) on a character list. -/
def collapseWs (l : List Char) : List Char := collapseWsF l.length l

/-- Python str.strip(): drop whitespace from both ends. -/
def pyStrip (l : List Char) : List Char :=
  ((l.dropWhile pyIsSpace).reverse.dropWhile pyIsSpace).reverse

/-- TranscribeWorker.clean_text (transcribe_worker.py):
text.lower().strip(), collapse \s+ to " ", then delete [^\w\s]. -/
def clean_text (s : String) : String :=
  ⟨(collapseWs (pyStrip (s.data.map Char.toLower))).filter
      (fun c => pyIsWord c || pyIsSpace c)⟩

/-! ## jiwer word/character error rate (third-party, called by the worker)

jiwer's default word transform is RemoveMultipleSpaces + Strip +
ReduceToListOfListOfWords, i.e. split on " " keeping only non-empty words;
its cer transform strips and reduces to the character list.  jiwer raises
ValueError("one or more groundtruths are empty strings") when the transformed
reference is empty, and otherwise returns (unit-cost Levenshtein edit
distance) / (reference length). -/

/-- Python s.split(" "): cut at every single space character (empty pieces
kept, as Python does). -/
def splitSpace : List Char → List (List Char)
  | [] => [[]]
  | c :: cs =>
    if c = ' ' then [] :: splitSpace cs
    else
      match splitSpace cs with
      | [] => [[c]]  -- unreachable: splitSpace never returns []
      | w :: ws => (c :: w) :: ws

/-- The word list jiwer computes for a sentence: split on single spaces,
dropping empty pieces. -/
def jiwerWords (s : String) : List String :=
  ((splitSpace s.data).map (fun w => (⟨w⟩ : String))).filter
    (fun w => w ≠ "")

/-- Unit-cost Levenshtein edit distance recursion, with structural fuel
(one unit per step; with fuel >= |xs| + |ys| the zero-fuel branch is
unreachable). -/
def levDistF {α : Type} [DecidableEq α] : Nat → List α → List α → Nat
  | _, [], ys => ys.length
  | _, x :: xs, [] => (x :: xs).length
  | 0, _ :: _, _ :: _ => 0
  | f + 1, x :: xs, y :: ys =>
    if x = y then levDistF f xs ys
    else 1 + min (levDistF f xs ys)
            (min (levDistF f (x :: xs) ys) (levDistF f xs (y :: ys)))

/-- Unit-cost Levenshtein edit distance (the value jiwer computes as S+D+I). -/
def levDist {α : Type} [DecidableEq α] (xs ys : List α) : Nat :=
  levDistF (xs.length + ys.length) xs ys

/-- jiwer.wer on two (already transformed upstream) sentence strings. -/
def jiwerWer (ref hyp : String) : Except String ℚ :=
  let r := jiwerWords ref
  let h := jiwerWords hyp
  if r = [] then .error "one or more groundtruths are empty strings"
  else .ok ((levDist r h : ℚ) / (r.length : ℚ))

/-- jiwer.cer on two sentence strings (character-level, after strip). -/
def jiwerCer (ref hyp : String) : Except String ℚ :=
  let r := pyStrip ref.data
  let h := pyStrip hyp.data
  if r = [] then .error "one or more groundtruths are empty strings"
  else .ok ((levDist r h : ℚ) / (r.length : ℚ))

/-- The WER computed inside TranscribeWorker.run:
err = wer(reference=clean_text(ref), hypothesis=clean_text(hyp)).
A raised ValueError propagates to the except-branch of run, which emits the
failed signal; this is the .error case. -/
def workerWer (refText hypText : String) : Except String ℚ :=
  jiwerWer (clean_text refText) (clean_text hypText)

/-- The clarity computed inside TranscribeWorker.run: clar = 1.0 - err
(no clamping). -/
def workerClar (refText hypText : String) : Except String ℚ :=
  (workerWer refText hypText).map (fun e => 1 - e)

/-- TranscriptionService._compute_cer: jiwer.cer on clean_text'ed inputs,
with any exception swallowed and replaced by 0.0. -/
def compute_cer (refText hypText : String) : ℚ :=
  match jiwerCer (clean_text refText) (clean_text hypText) with
  | .error _ => 0
  | .ok v => v

/-! ## The logistic score (TranscribeWorker._scale_score), over ℝ -/

/-- TranscribeWorker._scale_score: clamp clarity to [0,1], apply the logistic
curve, clamp the result to [1,5]. -/
noncomputable def scale_score (clarity : ℝ) : ℝ :=
  let c := max 0 (min clarity 1)
  let score := 1 + 4 / (1 + Real.exp (-20 * (c - 0.80)))
  min 5 (max 1 score)

/-- Modelled from the spec: the score formula exactly as the spec words it,
score = 1 + 4 / (1 + exp(-20 * (clarity - 0.80))) then clamp to [1, 5],
applied directly to the clarity argument (no prior clamp of clarity). -/
noncomputable def specScoreFormula (clarity : ℝ) : ℝ :=
  min 5 (max 1 (1 + 4 / (1 + Real.exp (-20 * (clarity - 0.80)))))

/-! ## Tokenizer (alignment_utils.tokenize_with_spans)

re.finditer(r"\b\w+\b", text) yields exactly the maximal runs of word
characters, with their start/end offsets in the original text; the scan
below takes each maximal run in left-to-right order. -/

/-- A token: (text, start_char, end_char), half-open offsets. -/
abbrev Token := String × Nat × Nat

/-- Left-to-right scan collecting maximal \w runs with offsets; i is the
offset of the head of the remaining character list.  The first argument is
structural fuel (one unit per character consumed); with fuel >= length the
zero-fuel branch is unreachable. -/
def tokenizeAux : Nat → Nat → List Char → List Token
  | _, _, [] => []
  | 0, _, _ :: _ => []
  | f + 1, i, c :: cs =>
    if pyIsWord c then
      let run := (c :: cs).takeWhile pyIsWord
      (⟨run⟩, i, i + run.length)
        :: tokenizeAux f (i + run.length) ((c :: cs).dropWhile pyIsWord)
    else tokenizeAux f (i + 1) cs

/-- alignment_utils.tokenize_with_spans. -/
def tokenize_with_spans (text : String) : List Token :=
  tokenizeAux text.data.length 0 text.data

/-! ## Token aligner (alignment_utils._align_tokens)

The DP cost table dp and back-pointer table bt, written as recursive
functions of the cell coordinates; dp (i, 0) = i, dp (0, j) = j, and the
inner cell mirrors the source exactly:
  a = dp[i-1][j] + 1 (del), b = dp[i][j-1] + 1 (ins),
  c = dp[i-1][j-1] + cost_sub, best = min(a, b, c);
  bt = diagonal if best == c, else del if best == a, else ins. -/

/-- The lowered i-th reference token compared in the DP (ref[i].lower()). -/
def alignRefC (ref : List String) (i : Nat) : String :=
  pyLower (ref.getD i "")

/-- The DP cost table of _align_tokens, with structural fuel (one unit per
cell step; with fuel >= i + j the zero-fuel branch is unreachable). -/
def alignDPF (ref hyp : List String) : Nat → Nat → Nat → Nat
  | _, i, 0 => i
  | _, 0, j + 1 => j + 1
  | 0, _ + 1, _ + 1 => 0
  | f + 1, i + 1, j + 1 =>
    let cost := if alignRefC ref i = alignRefC hyp j then 0 else 1
    let a := alignDPF ref hyp f i (j + 1) + 1
    let b := alignDPF ref hyp f (i + 1) j + 1
    let c := alignDPF ref hyp f i j + cost
    min (min a b) c

/-- The DP cost table of _align_tokens: dp[i][j]. -/
def alignDP (ref hyp : List String) (i j : Nat) : Nat :=
  alignDPF ref hyp (i + j) i j

/-- The back-pointer table of _align_tokens; entries are
(op, prev_ref_index, prev_hyp_index) exactly as stored in bt. -/
def alignBT (ref hyp : List String) : Nat → Nat → String × Nat × Nat
  | 0, 0 => ("", 0, 0)
  | i + 1, 0 => ("del", i, 0)
  | 0, j + 1 => ("ins", 0, j)
  | i + 1, j + 1 =>
    let cost := if alignRefC ref i = alignRefC hyp j then 0 else 1
    let a := alignDP ref hyp i (j + 1) + 1
    let b := alignDP ref hyp (i + 1) j + 1
    let c := alignDP ref hyp i j + cost
    let best := min (min a b) c
    if best = c then ((if cost = 0 then "equal" else "sub"), i, j)
    else if best = a then ("del", i, j + 1)
    else ("ins", i + 1, j)

/-- One alignment op as appended during reconstruction:
(op, ref_index?, hyp_index?). -/
abbrev AlignOp := String × Option Nat × Option Nat

/-- The reconstruction loop of _align_tokens: walk bt from (i, j) towards
(0, 0), emitting ops in back-to-front order (the source appends then
reverses; alignWalk produces the pre-reverse order). -/
def alignWalkF (ref hyp : List String) : Nat → Nat → Nat → List AlignOp
  | _, 0, 0 => []
  | 0, _, _ => []
  | f + 1, i + 1, 0 => ("del", some i, none) :: alignWalkF ref hyp f i 0
  | f + 1, 0, j + 1 => ("ins", none, some j) :: alignWalkF ref hyp f 0 j
  | f + 1, i + 1, j + 1 =>
    let t := alignBT ref hyp (i + 1) (j + 1)
    if t.1 = "equal" || t.1 = "sub" then
      (t.1, some t.2.1, some t.2.2) :: alignWalkF ref hyp f i j
    else if t.1 = "del" then
      ("del", some i, none) :: alignWalkF ref hyp f i (j + 1)
    else if t.1 = "ins" then
      ("ins", none, some j) :: alignWalkF ref hyp f (i + 1) j
    else  -- unreachable fallback branch of the source: treat as deletion
      ("del", some i, none) :: alignWalkF ref hyp f i (j + 1)

/-- The reconstruction walk from (i, j): the first argument is structural
fuel (one unit per emitted op; with fuel >= i + j the zero-fuel branch is
unreachable since every op decreases i + j). -/
def alignWalk (ref hyp : List String) (i j : Nat) : List AlignOp :=
  alignWalkF ref hyp (i + j) i j

/-- alignment_utils._align_tokens: the forward-order op list. -/
def align_tokens (ref hyp : List String) : List AlignOp :=
  (alignWalk ref hyp ref.length hyp.length).reverse

/-! ## Run merging (alignment_utils._append_runs) -/

/-- A highlight span: (start, end, color_hex). -/
abbrev Span := Nat × Nat × String

/-- Ascending stable insertion used to model Python list.sort() on the index
list of _append_runs. -/
def insertAsc (x : Nat) : List Nat → List Nat
  | [] => [x]
  | y :: ys => if x ≤ y then x :: y :: ys else y :: insertAsc x ys

/-- Python list.sort() (ascending) on a list of naturals. -/
def sortNat (l : List Nat) : List Nat := l.foldr insertAsc []

/-- The merging loop of _append_runs: runStart/prev as in the source; emits
a span whenever the run of consecutive indexes breaks, and a final span. -/
def runsLoop (startBase : Nat) (color : String) :
    Nat → Nat → List Nat → List Span
  | runStart, prev, [] => [(startBase + runStart, startBase + prev + 1, color)]
  | runStart, prev, k :: rest =>
    if k = prev + 1 then runsLoop startBase color runStart k rest
    else (startBase + runStart, startBase + prev + 1, color)
      :: runsLoop startBase color k k rest

/-- alignment_utils._append_runs: the source mutates its spans argument by
appending; modelled as returning the extended list. -/
def append_runs (spans : List Span) (startBase : Nat) (indexes : List Nat)
    (color : String) : List Span :=
  match sortNat indexes with
  | [] => spans
  | k0 :: rest => spans ++ runsLoop startBase color k0 k0 rest

/-! ## difflib.SequenceMatcher (CPython, isjunk = None)

Called by _char_level_spans_for_substitution on the lower-cased word pair.
With isjunk = None the bjunk set is empty, so the junk-extension while loops
of find_longest_match never run; autojunk only purges popular elements when
len(b) >= 200.  get_matching_blocks is implemented in CPython with an
explicit LIFO queue followed by a sort of the collected (disjoint) blocks;
the structural recursion below visits exactly the same subranges and emits
the blocks directly in that sorted order.  gmbGo carries a fuel argument
(one unit per recursion level) as its termination measure; the initial fuel
len(a) + len(b) + 1 exceeds the recursion depth, which is bounded by the
total size of the range since find_longest_match always answers inside the
queried range. -/

/-- SequenceMatcher.b2j lookup: the ascending list of positions of c in b,
with the autojunk purge of popular elements (only for len(b) >= 200). -/
def b2j (b : List Char) (c : Char) : List Nat :=
  let idxs := (List.range b.length).filter (fun j => b.getD j ' ' = c)
  if 200 ≤ b.length && b.length / 100 + 1 < idxs.length then [] else idxs

/-- Inner loop of find_longest_match over b2j[a[i]]: skip j < blo, break at
j >= bhi; k = j2len.get(j-1, 0) + 1 (keys are nonnegative, so j = 0 reads
the default 0); update newj2len and the running best when k > bestsize
(besti = i-k+1, bestj = j-k+1; k <= i+1 and k <= j+1 always hold, so the
truncated subtraction agrees with Python). -/
def flmInner (blo bhi i : Nat) (j2len : Nat → Nat) :
    List Nat → (Nat → Nat) → (Nat × Nat × Nat) →
      ((Nat → Nat) × (Nat × Nat × Nat))
  | [], newj2len, best => (newj2len, best)
  | j :: rest, newj2len, best =>
    if j < blo then flmInner blo bhi i j2len rest newj2len best
    else if bhi ≤ j then (newj2len, best)
    else
      let k := (if j = 0 then 0 else j2len (j - 1)) + 1
      let newj2len' := fun x => if x = j then k else newj2len x
      let best' := if best.2.2 < k then (i + 1 - k, j + 1 - k, k) else best
      flmInner blo bhi i j2len rest newj2len' best'

/-- Outer loop of find_longest_match over rows i in [alo, ahi); cnt is the
number of remaining rows, j2len the finished previous row. -/
def flmOuter (a b : List Char) (blo bhi : Nat) :
    Nat → Nat → (Nat → Nat) → (Nat × Nat × Nat) → Nat × Nat × Nat
  | 0, _, _, best => best
  | cnt + 1, i, j2len, best =>
    let s := flmInner blo bhi i j2len (b2j b (a.getD i ' '))
      (fun _ => 0) best
    flmOuter a b blo bhi cnt (i + 1) s.1 s.2

/-- Backward extension loop of find_longest_match (the non-junk one; the
junk variant never fires with isjunk = None).  Structural fuel: the loop
decrements besti each step, so fuel = besti makes the zero-fuel branch
coincide with the loop guard failing (alo < 0 is false). -/
def extBackF (a b : List Char) (alo blo : Nat) :
    Nat → Nat → Nat → Nat → Nat × Nat × Nat
  | 0, besti, bestj, bestsize => (besti, bestj, bestsize)
  | f + 1, besti, bestj, bestsize =>
    if alo < besti ∧ blo < bestj ∧
        a.getD (besti - 1) ' ' = b.getD (bestj - 1) ' ' then
      extBackF a b alo blo f (besti - 1) (bestj - 1) (bestsize + 1)
    else (besti, bestj, bestsize)

/-- Forward extension loop of find_longest_match.  Structural fuel: the gap
ahi - (besti + bestsize) decrements each step, so fuel = that gap makes the
zero-fuel branch coincide with the loop guard failing. -/
def extFwdF (a b : List Char) (ahi bhi : Nat) :
    Nat → Nat → Nat → Nat → Nat × Nat × Nat
  | 0, besti, bestj, bestsize => (besti, bestj, bestsize)
  | f + 1, besti, bestj, bestsize =>
    if besti + bestsize < ahi ∧ bestj + bestsize < bhi ∧
        a.getD (besti + bestsize) ' ' = b.getD (bestj + bestsize) ' ' then
      extFwdF a b ahi bhi f besti bestj (bestsize + 1)
    else (besti, bestj, bestsize)

/-- SequenceMatcher.find_longest_match on [alo, ahi) x [blo, bhi). -/
def find_longest_match (a b : List Char) (alo ahi blo bhi : Nat) :
    Nat × Nat × Nat :=
  let core := flmOuter a b blo bhi (ahi - alo) alo (fun _ => 0) (alo, blo, 0)
  let back := extBackF a b alo blo core.1 core.1 core.2.1 core.2.2
  extFwdF a b ahi bhi (ahi - (back.1 + back.2.2)) back.1 back.2.1 back.2.2

/-- Recursive form of SequenceMatcher.get_matching_blocks' queue loop:
split around the longest match, recursing on the left and right subranges
exactly under the source's guards; blocks are produced in ascending order
(the order CPython obtains by sorting). -/
def gmbGo (a b : List Char) : Nat → Nat → Nat → Nat → Nat →
    List (Nat × Nat × Nat)
  | 0, _, _, _, _ => []
  | fuel + 1, alo, ahi, blo, bhi =>
    let m := find_longest_match a b alo ahi blo bhi
    if m.2.2 = 0 then []
    else
      (if alo < m.1 ∧ blo < m.2.1 then
        gmbGo a b fuel alo m.1 blo m.2.1 else [])
      ++ [(m.1, m.2.1, m.2.2)]
      ++ (if m.1 + m.2.2 < ahi ∧ m.2.1 + m.2.2 < bhi then
        gmbGo a b fuel (m.1 + m.2.2) ahi (m.2.1 + m.2.2) bhi else [])

/-- The adjacent-block merging loop of get_matching_blocks (i1/j1/k1 start
at 0/0/0 as in the source). -/
def collapseBlocks : Nat → Nat → Nat → List (Nat × Nat × Nat) →
    List (Nat × Nat × Nat)
  | i1, j1, k1, [] => if k1 ≠ 0 then [(i1, j1, k1)] else []
  | i1, j1, k1, (i2, j2, k2) :: rest =>
    if i1 + k1 = i2 ∧ j1 + k1 = j2 then collapseBlocks i1 j1 (k1 + k2) rest
    else (if k1 ≠ 0 then [(i1, j1, k1)] else [])
      ++ collapseBlocks i2 j2 k2 rest

/-- SequenceMatcher.get_matching_blocks, with the terminal sentinel
(len(a), len(b), 0). -/
def get_matching_blocks (a b : List Char) : List (Nat × Nat × Nat) :=
  collapseBlocks 0 0 0
      (gmbGo a b (a.length + b.length + 1) 0 a.length 0 b.length)
    ++ [(a.length, b.length, 0)]

/-- An opcode: (tag, i1, i2, j1, j2). -/
abbrev Opcode := String × Nat × Nat × Nat × Nat

/-- The loop of SequenceMatcher.get_opcodes over matching blocks. -/
def opcodesGo : Nat → Nat → List (Nat × Nat × Nat) → List Opcode
  | _, _, [] => []
  | i, j, (ai, bj, size) :: rest =>
    let tag := if i < ai ∧ j < bj then "replace"
      else if i < ai then "delete"
      else if j < bj then "insert" else ""
    (if tag ≠ "" then [(tag, i, ai, j, bj)] else [])
      ++ (if size ≠ 0 then [("equal", ai, ai + size, bj, bj + size)] else [])
      ++ opcodesGo (ai + size) (bj + size) rest

/-- SequenceMatcher.get_opcodes. -/
def get_opcodes (a b : List Char) : List Opcode :=
  opcodesGo 0 0 (get_matching_blocks a b)

/-! ## Character-level spans for substitutions and the span builder
(alignment_utils._char_level_spans_for_substitution,
 alignment_utils.compute_error_spans_for_display) -/

/-- VOWELS = set("aeiou"). -/
def VOWELS : List Char := ['a', 'e', 'i', 'o', 'u']

def COL_VOWEL_DEL : String := "#ff3b3066"
def COL_CONS_DEL : String := "#ff9e9e66"
def COL_INSERT : String := "#66a3ff66"
def COL_REPLACE : String := "#ffc10766"
def COL_WORD_DEL : String := "#ff6b6b55"
def COL_WORD_INS : String := "#6b9bff55"

/-- The body of the opcode loop of _char_level_spans_for_substitution:
the pair of span lists one opcode contributes to (ref_spans, hyp_spans). -/
def subOpSpans (refWord : String) (refStart hypStart : Nat)
    (op : Opcode) : List Span × List Span :=
  let (tag, i1, i2, j1, j2) := op
  if tag = "equal" then ([], [])
  else if tag = "replace" then
    ([(refStart + i1, refStart + i2, COL_REPLACE)],
     [(hypStart + j1, hypStart + j2, COL_REPLACE)])
  else if tag = "delete" then
    let idxs := List.range' i1 (i2 - i1)
    let vowelIdx := idxs.filter
      (fun k => (refWord.data.getD k ' ').toLower ∈ VOWELS)
    let consIdx := idxs.filter
      (fun k => ¬ (refWord.data.getD k ' ').toLower ∈ VOWELS)
    (append_runs (append_runs [] refStart vowelIdx COL_VOWEL_DEL)
        refStart consIdx COL_CONS_DEL,
     [])
  else if tag = "insert" then
    ([], [(hypStart + j1, hypStart + j2, COL_INSERT)])
  else ([], [])

/-- alignment_utils._char_level_spans_for_substitution: SequenceMatcher over
the lower-cased word pair, accumulating the per-opcode spans in loop order. -/
def char_level_spans_for_substitution (refWord hypWord : String)
    (refStart hypStart : Nat) : List Span × List Span :=
  let ops := get_opcodes (pyLower refWord).data (pyLower hypWord).data
  ops.foldl (fun acc op =>
    let p := subOpSpans refWord refStart hypStart op
    (acc.1 ++ p.1, acc.2 ++ p.2)) ([], [])

/-- alignment_utils.compute_error_spans_for_display: tokenize both texts,
align the token words, and accumulate (script_spans, transcript_spans) in
loop order.  List indexing ref_tokens[ri] / hyp_tokens[hj] is modelled with
getD; the indices produced by _align_tokens are always in range (proved
below), so the default is never read. -/
def compute_error_spans_for_display (refText hypText : String) :
    List Span × List Span :=
  let refTokens := tokenize_with_spans refText
  let hypTokens := tokenize_with_spans hypText
  let refWords := refTokens.map (fun t => t.1)
  let hypWords := hypTokens.map (fun t => t.1)
  let ops := align_tokens refWords hypWords
  ops.foldl (fun acc op =>
    match op with
    | ("equal", _, _) => acc
    | ("del", some ri, _) =>
      let t := refTokens.getD ri ("", 0, 0)
      (acc.1 ++ [(t.2.1, t.2.2, COL_WORD_DEL)], acc.2)
    | ("ins", _, some hj) =>
      let t := hypTokens.getD hj ("", 0, 0)
      (acc.1, acc.2 ++ [(t.2.1, t.2.2, COL_WORD_INS)])
    | ("sub", some ri, some hj) =>
      let rt := refTokens.getD ri ("", 0, 0)
      let ht := hypTokens.getD hj ("", 0, 0)
      let p := char_level_spans_for_substitution rt.1 ht.1 rt.2.1 ht.2.1
      (acc.1 ++ p.1, acc.2 ++ p.2)
    | _ => acc) ([], [])

/-! ## Segments (transcript_utils.build_transcript_from_segments,
transcription_service._augment_segments_and_fluency) -/

/-- A recognizer segment as the code reads it from the result dict:
seg.get("text", ""), seg.get("start", 0.0), seg.get("end", start),
seg.get("avg_logprob", None).  Missing numeric fields are the none case.
All floats are modelled as exact rationals. -/
structure Segment where
  text : String
  start : Option ℚ
  stop : Option ℚ
  avg_logprob : Option ℚ
deriving DecidableEq, Repr

/-- Python str.split() (no argument: split on whitespace runs, dropping
empties); applied only to clean_text output, where every whitespace
character is a single space, so splitting on spaces and dropping empties is
exact. -/
def pySplit (s : String) : List String :=
  ((splitSpace s.data).map (fun w => (⟨w⟩ : String))).filter
    (fun w => w ≠ "")

/-- TranscriptionService._norm_conf_from_logprob:
conf = (lp + 1.0) / 1.0, then floored at 0, then capped at 1. -/
def norm_conf_from_logprob (lp : Option ℚ) : Option ℚ :=
  match lp with
  | none => none
  | some v =>
    let conf := (v + 1) / 1
    let conf := if conf < 0 then 0 else conf
    let conf := if 1 < conf then 1 else conf
    some conf

/-- A segment augmented with duration, pause_before and optional conf, as
built by _augment_segments_and_fluency. -/
structure AugSeg where
  seg : Segment
  duration : ℚ
  pause_before : ℚ
  conf : Option ℚ
deriving DecidableEq, Repr

/-- The per-segment loop of _augment_segments_and_fluency: returns the
augmented segments plus (speech_time, pause_time, conf_vals).  prev_end is
None before the first segment; pb = 0 then, so accumulating pb
unconditionally equals the source's guarded accumulation. -/
def augmentLoop (prevEnd : Option ℚ) :
    List Segment → List AugSeg × ℚ × ℚ × List ℚ
  | [] => ([], 0, 0, [])
  | seg :: rest =>
    let start := seg.start.getD 0
    let en := seg.stop.getD start
    let dur := max 0 (en - start)
    let pb := match prevEnd with
      | none => 0
      | some pe => max 0 (start - pe)
    let conf := norm_conf_from_logprob seg.avg_logprob
    let r := augmentLoop (some en) rest
    (⟨seg, dur, pb, conf⟩ :: r.1, dur + r.2.1, pb + r.2.2.1,
      match conf with
      | some c => c :: r.2.2.2
      | none => r.2.2.2)

/-- Result record of _augment_segments_and_fluency. -/
structure FluencyResult where
  segs : List AugSeg
  artic_rate : ℚ
  pause_ratio : ℚ
  filled_count : ℚ
  avg_conf : Option ℚ

/-- TranscriptionService._augment_segments_and_fluency. -/
def augment_segments_and_fluency (segments : List Segment)
    (hypText : String) : FluencyResult :=
  let r := augmentLoop none segments
  let speech := r.2.1
  let pause := r.2.2.1
  let confs := r.2.2.2
  let total : ℚ := match segments with
    | [] => 0
    | s0 :: _ =>
      max 0 (((segments.getLast?.map (fun s => s.stop.getD 0)).getD 0)
        - s0.start.getD 0)
  let hypClean := clean_text hypText
  let nWords := (pySplit hypClean).length
  let eps : ℚ := 1 / 1000000
  let artic : ℚ := if eps < speech then (nWords : ℚ) * (60 / speech) else 0
  let denom := if eps < total then total else speech + pause
  let pauseRatio := if eps < denom then pause / denom else 0
  let filled := ((pySplit hypClean).filter
    (fun t => t ∈ (["um", "uh", "erm", "er", "hmm"] : List String))).length
  let avgConf := if confs = [] then none
    else some (confs.sum / (confs.length : ℚ))
  ⟨r.1, artic, pauseRatio, (filled : ℚ), avgConf⟩

/-- The loop of build_transcript_from_segments: skip empty-text segments,
concatenate verbatim, record (start_char, end_char, t0, t1) with
t0 = seg.get("start", 0.0) and t1 = seg.get("end", t0).  Non-dict entries
(skipped by the source's isinstance check) are outside the model: every
list entry is a Segment. -/
def buildGo (cursor : Nat) :
    List Segment → List String × List Segment × List (Nat × Nat × ℚ × ℚ)
  | [] => ([], [], [])
  | seg :: rest =>
    if seg.text = "" then buildGo cursor rest
    else
      let startChar := cursor
      let endChar := cursor + seg.text.length
      let t0 := seg.start.getD 0
      let t1 := seg.stop.getD t0
      let r := buildGo endChar rest
      (seg.text :: r.1, seg :: r.2.1, ((startChar, endChar, t0, t1)) :: r.2.2)

/-- transcript_utils.build_transcript_from_segments:
returns ("".join(parts), kept segments, ranges, active_index = -1). -/
def build_transcript_from_segments (segs : List Segment) :
    String × List Segment × List (Nat × Nat × ℚ × ℚ) × Int :=
  let r := buildGo 0 segs
  (String.join r.1, r.2.1, r.2.2, -1)

/-! ## Click-to-segment lookup (SpeechPractice._jump_to_transcript_char) -/

/-- Python min over a nonempty list of (distance, index) tuples:
lexicographic minimum, first occurrence on full ties (indices are distinct
here, so the minimum is unique). -/
def lexMinPair (h : Nat × Nat) (t : List (Nat × Nat)) : Nat × Nat :=
  t.foldl (fun acc c =>
    if c.1 < acc.1 ∨ (c.1 = acc.1 ∧ c.2 < acc.2) then c else acc) h

/-- The source's enumerate-and-break loop: index (counting from i0) of the
first list element satisfying p, or none. -/
def findFirstIdx (p : (Nat × Nat × ℚ × ℚ) → Bool) :
    Nat → List (Nat × Nat × ℚ × ℚ) → Option Nat
  | _, [] => none
  | i, r :: rest => if p r then some i else findFirstIdx p (i + 1) rest

/-- The nearest-by-midpoint distance of the source's fallback:
abs(((s + e) // 2) - char_pos) on a range's character bounds. -/
def midDist (charPos : Nat) (r : Nat × Nat × ℚ × ℚ) : Nat :=
  (((r.1 + r.2.1) / 2 : Int) - (charPos : Int)).natAbs

/-- SpeechPracticeApp._jump_to_transcript_char, reduced to the segment index
it selects (the method then seeks to ranges[idx][2]): first range with
s_char <= char_pos <= e_char (a closed-interval test), else the range whose
midpoint (s + e) // 2 is nearest to char_pos (ties by lower index, from
Python's tuple min).  Returns none when ranges is empty (the method's early
return; the audio_data guard is GUI state outside the model). -/
def jump_to_transcript_char (ranges : List (Nat × Nat × ℚ × ℚ))
    (charPos : Nat) : Option Nat :=
  if ranges = [] then none
  else
    match findFirstIdx (fun r => r.1 ≤ charPos && charPos ≤ r.2.1)
        0 ranges with
    | some i => some i
    | none =>
      let candidates := (List.range ranges.length).map (fun i =>
        (midDist charPos (ranges.getD i (0, 0, 0, 0)), i))
      match candidates with
      | [] => none
      | c :: cs => some (lexMinPair c cs).2

/-! ## Helper lemmas -/

lemma one_add_exp_pos (x : ℝ) : 0 < 1 + Real.exp x := by
  have := Real.exp_pos x; linarith

/-- The raw logistic value lies in (1, 5), so the [1,5] clamp is the
identity on it. -/
lemma logistic_clamp (x : ℝ) :
    min 5 (max 1 (1 + 4 / (1 + Real.exp x))) = 1 + 4 / (1 + Real.exp x) := by
  have hp := one_add_exp_pos x
  have hlow : (1 : ℝ) ≤ 1 + 4 / (1 + Real.exp x) := by
    have : (0 : ℝ) ≤ 4 / (1 + Real.exp x) := by positivity
    linarith
  have hhigh : 1 + 4 / (1 + Real.exp x) ≤ 5 := by
    have h4 : 4 / (1 + Real.exp x) ≤ 4 := by
      rw [div_le_iff hp]
      nlinarith [Real.exp_pos x]
    linarith
  rw [max_eq_right hlow, min_eq_right hhigh]

lemma logistic_lt_five (x : ℝ) : 1 + 4 / (1 + Real.exp x) < 5 := by
  have hp := one_add_exp_pos x
  have h4 : 4 / (1 + Real.exp x) < 4 := by
    rw [div_lt_iff hp]
    nlinarith [Real.exp_pos x]
  linarith

/-- scale_score with its outer clamp simplified away. -/
lemma scale_score_eq (c : ℝ) :
    scale_score c
      = 1 + 4 / (1 + Real.exp (-20 * (max 0 (min c 1) - 0.80))) := by
  unfold scale_score
  exact logistic_clamp _

/-- specScoreFormula with its clamp simplified away. -/
lemma specScoreFormula_eq (c : ℝ) :
    specScoreFormula c = 1 + 4 / (1 + Real.exp (-20 * (c - 0.80))) := by
  unfold specScoreFormula
  exact logistic_clamp _

/-- Evaluation rule for jiwerWer once the word lists are known. -/
lemma jiwerWer_eval {r h : String} {rw hw : List String}
    (hr : jiwerWords r = rw) (hh : jiwerWords h = hw) (hne : rw ≠ []) :
    jiwerWer r h = .ok ((levDist rw hw : ℚ) / (rw.length : ℚ)) := by
  unfold jiwerWer
  rw [hr, hh, if_neg hne]

/-- Deleting against an empty hypothesis costs the whole reference. -/
lemma levDist_nil_right (r : List String) : levDist r [] = r.length := by
  cases r <;> rfl

/-! ## C1 -/

/-- C1 (amended): scale_score first clamps clarity to [0, 1] and only then
applies the spec's clamped logistic formula; on [0, 1] it therefore agrees
with the spec formula, score at clarity 0.80 is exactly 3, and scale_score
is monotonically non-decreasing. -/
theorem C1_score_amended :
    (∀ c : ℝ, scale_score c = specScoreFormula (max 0 (min c 1)))
    ∧ (∀ c : ℝ, 0 ≤ c → c ≤ 1 → scale_score c = specScoreFormula c)
    ∧ scale_score 0.80 = 3
    ∧ (∀ x y : ℝ, x ≤ y → scale_score x ≤ scale_score y) := by
  have hclamp : ∀ c : ℝ, scale_score c = specScoreFormula (max 0 (min c 1)) :=
    fun c => rfl
  refine ⟨hclamp, ?_, ?_, ?_⟩
  · intro c h0 h1
    rw [hclamp c, min_eq_left h1, max_eq_right h0]
  · have h1 : min (0.80 : ℝ) 1 = 0.80 := min_eq_left (by norm_num)
    have h2 : max (0 : ℝ) 0.80 = 0.80 := max_eq_right (by norm_num)
    rw [scale_score_eq, h1, h2]
    norm_num [Real.exp_zero]
  · intro x y hxy
    rw [scale_score_eq, scale_score_eq]
    have hc : max 0 (min x 1) ≤ max 0 (min y 1) :=
      max_le_max le_rfl (min_le_min hxy le_rfl)
    have harg : -20 * (max 0 (min y 1) - 0.80)
        ≤ -20 * (max 0 (min x 1) - 0.80) := by nlinarith
    have hexp := Real.exp_le_exp.mpr harg
    have hpy := one_add_exp_pos (-20 * (max 0 (min y 1) - 0.80))
    have hdiv : 4 / (1 + Real.exp (-20 * (max 0 (min x 1) - 0.80)))
        ≤ 4 / (1 + Real.exp (-20 * (max 0 (min y 1) - 0.80))) := by
      gcongr
    linarith

/-- C1 counterexample: the claim's formula, applied directly to a clarity
value outside [0, 1] (possible, since the worker's clarity is 1 - WER with
WER possibly exceeding 1), differs from what the code computes. -/
theorem C1_counterexample : scale_score (-1) ≠ specScoreFormula (-1) := by
  have hm : min (-1 : ℝ) 1 = -1 := min_eq_left (by norm_num)
  have hM : max (0 : ℝ) (-1) = 0 := max_eq_left (by norm_num)
  have hA : scale_score (-1) = 1 + 4 / (1 + Real.exp 16) := by
    rw [scale_score_eq, hm, hM]
    norm_num
  have hB : specScoreFormula (-1) = 1 + 4 / (1 + Real.exp 36) := by
    rw [specScoreFormula_eq]
    norm_num
  rw [hA, hB]
  have hlt : Real.exp 16 < Real.exp 36 := Real.exp_lt_exp.mpr (by norm_num)
  have h16 := one_add_exp_pos (16 : ℝ)
  have h36 := one_add_exp_pos (36 : ℝ)
  have : 4 / (1 + Real.exp 36) < 4 / (1 + Real.exp 16) := by
    gcongr
  intro hEq
  rw [add_right_inj] at hEq
  linarith [hEq ▸ this]

/-- C1 witness: the amended theorem applied at clarity 1/2 (inside [0,1])
and at the pair 0 <= 1 for monotonicity. -/
theorem C1_witness :
    ((0 : ℝ) ≤ 1 / 2 ∧ (1 / 2 : ℝ) ≤ 1
      ∧ scale_score (1 / 2) = specScoreFormula (1 / 2))
    ∧ ((0 : ℝ) ≤ 1 ∧ scale_score 0 ≤ scale_score 1) :=
  ⟨⟨by norm_num, by norm_num,
      C1_score_amended.2.1 (1 / 2) (by norm_num) (by norm_num)⟩,
    ⟨by norm_num, C1_score_amended.2.2.2 0 1 (by norm_num)⟩⟩

/-! ## C2 -/

/-- C2 (amended): the clarity emitted by TranscribeWorker.run is exactly
1.0 - WER, with no clamping; the clamp to [0, 1] happens only later, inside
_scale_score, so the emitted clarity can be negative when WER exceeds 1. -/
theorem C2_clarity_amended :
    ∀ (refText hypText : String) (w : ℚ),
      workerWer refText hypText = .ok w →
      workerClar refText hypText = .ok (1 - w) := by
  intro r h w hw
  unfold workerClar
  rw [hw]
  rfl

/-- C2 counterexample: for reference "a" and hypothesis "b c d" the WER is
3, so the emitted clarity is -2, while the claim's clamped value would be
max 0 (min 1 (1 - 3)) = 0. -/
theorem C2_counterexample :
    workerClar "a" "b c d" = .ok (-2)
    ∧ max 0 (min 1 (1 - (3 : ℚ))) = 0
    ∧ (-2 : ℚ) ≠ 0 := by
  refine ⟨?_, by norm_num, by norm_num⟩
  have hr : jiwerWords (clean_text "a") = ["a"] := by decide
  have hh : jiwerWords (clean_text "b c d") = ["b", "c", "d"] := by decide
  have hl : levDist ["a"] ["b", "c", "d"] = 3 := by decide
  have hw : workerWer "a" "b c d" = .ok 3 := by
    unfold workerWer
    rw [jiwerWer_eval hr hh (by decide), hl]
    norm_num
  unfold workerClar
  rw [hw]
  simp only [Except.map]
  norm_num

/-- C2 witness: the amended theorem applied at reference "a",
hypothesis "b" (WER 1). -/
theorem C2_witness :
    workerWer "a" "b" = .ok 1 ∧ workerClar "a" "b" = .ok (1 - 1) := by
  have hr : jiwerWords (clean_text "a") = ["a"] := by decide
  have hh : jiwerWords (clean_text "b") = ["b"] := by decide
  have hl : levDist ["a"] ["b"] = 1 := by decide
  have hw : workerWer "a" "b" = .ok 1 := by
    unfold workerWer
    rw [jiwerWer_eval hr hh (by decide), hl]
    norm_num
  exact ⟨hw, C2_clarity_amended "a" "b" 1 hw⟩

/-! ## C3 -/

/-- C3 (amended): when the cleaned reference has no tokens the WER
computation raises inside jiwer (the worker's run catches it and emits the
failed signal) rather than defining WER = 0.0; an empty hypothesis against
a non-empty reference is indeed a defined case with WER = 1.0. -/
theorem C3_empty_tokens_amended :
    (∀ ref hyp : String, jiwerWords (clean_text ref) = [] →
      ∃ msg, workerWer ref hyp = .error msg)
    ∧ (∀ ref hyp : String, jiwerWords (clean_text ref) ≠ [] →
      jiwerWords (clean_text hyp) = [] →
      workerWer ref hyp = .ok 1) := by
  constructor
  · intro ref hyp h
    refine ⟨"one or more groundtruths are empty strings", ?_⟩
    unfold workerWer jiwerWer
    rw [h]
    rfl
  · intro ref hyp hr hh
    unfold workerWer
    rw [jiwerWer_eval rfl hh hr, levDist_nil_right]
    have hlen0 : (jiwerWords (clean_text ref)).length ≠ 0 :=
      fun h0 => hr (List.length_eq_zero.mp h0)
    have hlen : ((jiwerWords (clean_text ref)).length : ℚ) ≠ 0 := by
      exact_mod_cast hlen0
    rw [div_self hlen]

/-- C3 counterexample: with an empty reference the worker's WER computation
is the raised jiwer error, not ok 0. -/
theorem C3_counterexample :
    workerWer "" "hello" = .error "one or more groundtruths are empty strings"
    ∧ ∀ q : ℚ, workerWer "" "hello" ≠ .ok q := by
  have h : workerWer "" "hello"
      = .error "one or more groundtruths are empty strings" := by
    unfold workerWer jiwerWer
    rw [show jiwerWords (clean_text "") = [] from by decide]
    rfl
  refine ⟨h, fun q hq => ?_⟩
  rw [h] at hq
  exact Except.noConfusion hq

/-- C3 witness: the amended theorem applied at ("", "abc") for the raising
branch and at ("ok", "!!") for the empty-hypothesis branch (clean_text "!!"
is empty). -/
theorem C3_witness :
    (jiwerWords (clean_text "") = []
      ∧ ∃ msg, workerWer "" "abc" = .error msg)
    ∧ (jiwerWords (clean_text "ok") ≠ []
      ∧ jiwerWords (clean_text "!!") = []
      ∧ workerWer "ok" "!!" = .ok 1) :=
  ⟨⟨by decide, C3_empty_tokens_amended.1 "" "abc" (by decide)⟩,
    ⟨by decide, by decide,
      C3_empty_tokens_amended.2 "ok" "!!" (by decide) (by decide)⟩⟩

/-! ## C4 -/

/-- C4 (amended): for identical reference and hypothesis
"the quick brown fox", WER = 0, clarity = 1, CER = 0 and the span builder
emits zero spans on both sides; the score, however, is
1 + 4 / (1 + exp(-4)) (about 4.93) — the logistic never reaches 5, and the
clamp to [1, 5] does not raise it to 5. -/
theorem C4_identical_texts_amended :
    workerWer "the quick brown fox" "the quick brown fox" = .ok 0
    ∧ workerClar "the quick brown fox" "the quick brown fox" = .ok 1
    ∧ compute_cer "the quick brown fox" "the quick brown fox" = 0
    ∧ scale_score 1 = 1 + 4 / (1 + Real.exp (-4))
    ∧ scale_score 1 < 5
    ∧ compute_error_spans_for_display "the quick brown fox"
        "the quick brown fox" = ([], []) := by
  have hr : jiwerWords (clean_text "the quick brown fox")
      = ["the", "quick", "brown", "fox"] := by decide
  have hl : levDist ["the", "quick", "brown", "fox"]
      ["the", "quick", "brown", "fox"] = 0 := by decide
  have hwer : workerWer "the quick brown fox" "the quick brown fox"
      = .ok 0 := by
    unfold workerWer
    rw [jiwerWer_eval hr hr (by decide), hl]
    norm_num
  have hcer : jiwerCer (clean_text "the quick brown fox")
      (clean_text "the quick brown fox") = .ok 0 := by
    unfold jiwerCer
    rw [if_neg (by decide),
      show levDist (pyStrip (clean_text "the quick brown fox").data)
        (pyStrip (clean_text "the quick brown fox").data) = 0 from by decide]
    norm_num
  have hs : scale_score 1 = 1 + 4 / (1 + Real.exp (-4)) := by
    rw [scale_score_eq, min_self, max_eq_right (zero_le_one)]
    norm_num
  refine ⟨hwer, ?_, ?_, hs, ?_, by decide⟩
  · unfold workerClar
    rw [hwer]
    simp only [Except.map]
    norm_num
  · unfold compute_cer
    rw [hcer]
  · rw [hs]
    exact logistic_lt_five (-4)

/-- C4 counterexample: at the identical-text scenario the clarity is 1 and
the code's score is strictly below 5, contradicting score = 5.0. -/
theorem C4_counterexample :
    workerClar "the quick brown fox" "the quick brown fox" = .ok 1
    ∧ scale_score 1 ≠ 5 := by
  have hr : jiwerWords (clean_text "the quick brown fox")
      = ["the", "quick", "brown", "fox"] := by decide
  have hl : levDist ["the", "quick", "brown", "fox"]
      ["the", "quick", "brown", "fox"] = 0 := by decide
  have hwer : workerWer "the quick brown fox" "the quick brown fox"
      = .ok 0 := by
    unfold workerWer
    rw [jiwerWer_eval hr hr (by decide), hl]
    norm_num
  constructor
  · unfold workerClar
    rw [hwer]
    simp only [Except.map]
    norm_num
  · have hs : scale_score 1 = 1 + 4 / (1 + Real.exp (-4)) := by
      rw [scale_score_eq, min_self, max_eq_right (zero_le_one)]
      norm_num
    rw [hs]
    exact ne_of_lt (logistic_lt_five (-4))

/-! ## C5 -/

/-- C5 (confirmed): in _align_tokens, with a/b/c the delete/insert/diagonal
candidate costs of cell (i+1, j+1), the retained back-pointer is the
diagonal (equal/sub) whenever c is no worse than both a and b, otherwise
the deletion whenever a is no worse than b, and otherwise the insertion —
i.e. the preference order substitute/equal > delete > insert on cost ties;
and the reconstructed alignment is exactly the reverse of the walk along
those retained back-pointers. -/
theorem C5_tiebreak (ref hyp : List String) (i j a b c : Nat)
    (ha : a = alignDP ref hyp i (j + 1) + 1)
    (hb : b = alignDP ref hyp (i + 1) j + 1)
    (hc : c = alignDP ref hyp i j
      + (if alignRefC ref i = alignRefC hyp j then 0 else 1)) :
    (c ≤ a → c ≤ b →
      alignBT ref hyp (i + 1) (j + 1)
        = ((if alignRefC ref i = alignRefC hyp j then "equal" else "sub"),
          i, j))
    ∧ ((a < c ∨ b < c) → a ≤ b →
      alignBT ref hyp (i + 1) (j + 1) = ("del", i, j + 1))
    ∧ ((a < c ∨ b < c) → b < a →
      alignBT ref hyp (i + 1) (j + 1) = ("ins", i + 1, j))
    ∧ align_tokens ref hyp = (alignWalk ref hyp ref.length hyp.length).reverse
    := by
  subst ha
  subst hb
  subst hc
  refine ⟨?_, ?_, ?_, rfl⟩
  · intro h1 h2
    by_cases heq : alignRefC ref i = alignRefC hyp j
    · simp only [alignBT, if_pos heq] at h1 h2 ⊢
      rw [if_pos (by omega : min (min (alignDP ref hyp i (j + 1) + 1)
        (alignDP ref hyp (i + 1) j + 1)) (alignDP ref hyp i j + 0)
          = alignDP ref hyp i j + 0)]
      norm_num
    · simp only [alignBT, if_neg heq] at h1 h2 ⊢
      rw [if_pos (by omega : min (min (alignDP ref hyp i (j + 1) + 1)
        (alignDP ref hyp (i + 1) j + 1)) (alignDP ref hyp i j + 1)
          = alignDP ref hyp i j + 1)]
      norm_num
  · intro h1 h2
    by_cases heq : alignRefC ref i = alignRefC hyp j
    · simp only [if_pos heq] at h1
      simp only [alignBT, if_pos heq]
      rw [if_neg (by omega), if_pos (by omega)]
    · simp only [if_neg heq] at h1
      simp only [alignBT, if_neg heq]
      rw [if_neg (by omega), if_pos (by omega)]
  · intro h1 h2
    by_cases heq : alignRefC ref i = alignRefC hyp j
    · simp only [if_pos heq] at h1
      simp only [alignBT, if_pos heq]
      rw [if_neg (by omega), if_neg (by omega)]
    · simp only [if_neg heq] at h1
      simp only [alignBT, if_neg heq]
      rw [if_neg (by omega), if_neg (by omega)]

/-- C5 witness: the tie-break theorem applied at ref = ["a"], hyp = ["b"],
cell (1,1), where a = b = 2 and c = 1 (a genuine substitution). -/
theorem C5_witness :
    (1 : Nat) ≤ 2
    ∧ alignBT ["a"] ["b"] 1 1
      = ((if alignRefC ["a"] 0 = alignRefC ["b"] 0 then "equal" else "sub"),
        0, 0) :=
  ⟨by decide,
    (C5_tiebreak ["a"] ["b"] 0 0 2 2 1 (by decide) (by decide)
      (by decide)).1 (by decide) (by decide)⟩

/-! ## Tokenizer lemmas and C7 -/

lemma take_takeWhile (p : Char → Bool) :
    ∀ l : List Char, l.take (l.takeWhile p).length = l.takeWhile p := by
  intro l
  induction l with
  | nil => rfl
  | cons c cs ih =>
    by_cases h : p c
    · simp [List.takeWhile_cons, h, ih]
    · simp [List.takeWhile_cons, h]

lemma drop_takeWhile_len (p : Char → Bool) :
    ∀ l : List Char, l.drop (l.takeWhile p).length = l.dropWhile p := by
  intro l
  induction l with
  | nil => rfl
  | cons c cs ih =>
    by_cases h : p c
    · simp [List.takeWhile_cons, List.dropWhile_cons, h, ih]
    · simp [List.takeWhile_cons, List.dropWhile_cons, h]

/-- Invariant of the tokenizer scan: with full.drop i = l and enough fuel,
every produced token starts at or after i, has end = start + length with a
non-empty text that is exactly the slice of the full text at its offsets,
and consecutive tokens are ordered (end <= next start). -/
lemma tokenizeAux_spec (full : List Char) :
    ∀ f i : Nat, ∀ l : List Char, full.drop i = l → l.length ≤ f →
      (∀ t ∈ tokenizeAux f i l,
        i ≤ t.2.1 ∧ t.2.2 = t.2.1 + t.1.data.length ∧ 0 < t.1.data.length
          ∧ (full.drop t.2.1).take t.1.data.length = t.1.data)
      ∧ List.Chain' (fun t u : Token => t.2.2 ≤ u.2.1)
          (tokenizeAux f i l) := by
  intro f
  induction f with
  | zero =>
    intro i l hd hl
    have hnil : l = [] := List.length_eq_zero.mp (Nat.le_zero.mp hl)
    subst hnil
    simp [tokenizeAux]
  | succ f ih =>
    intro i l hd hl
    cases l with
    | nil => simp [tokenizeAux]
    | cons c cs =>
      by_cases hw : pyIsWord c
      · have hrun : (c :: cs).takeWhile pyIsWord
            = c :: cs.takeWhile pyIsWord := by
          simp [List.takeWhile_cons, hw]
        have hdw : (c :: cs).dropWhile pyIsWord = cs.dropWhile pyIsWord := by
          simp [List.dropWhile_cons, hw]
        have hlen : ((c :: cs).takeWhile pyIsWord).length
            = (cs.takeWhile pyIsWord).length + 1 := by
          rw [hrun]; simp
        have hdrop' : full.drop (i + ((c :: cs).takeWhile pyIsWord).length)
            = (c :: cs).dropWhile pyIsWord := by
          rw [← List.drop_drop, hd, drop_takeWhile_len]
        have hfuel' : ((c :: cs).dropWhile pyIsWord).length ≤ f := by
          rw [hdw]
          have h1 := (List.dropWhile_sublist (p := pyIsWord)
            (l := cs)).length_le
          simp only [List.length_cons] at hl
          omega
        obtain ⟨ihmem, ihchain⟩ := ih _ _ hdrop' hfuel'
        have heq : tokenizeAux (f + 1) i (c :: cs)
            = ((⟨(c :: cs).takeWhile pyIsWord⟩ : String), i,
                i + ((c :: cs).takeWhile pyIsWord).length)
              :: tokenizeAux f (i + ((c :: cs).takeWhile pyIsWord).length)
                ((c :: cs).dropWhile pyIsWord) := by
          simp [tokenizeAux, hw]
        rw [heq]
        constructor
        · intro t ht
          rcases List.mem_cons.mp ht with h | h
          · subst h
            refine ⟨le_refl _, rfl, by rw [hlen]; omega, ?_⟩
            rw [hd]
            exact take_takeWhile pyIsWord (c :: cs)
          · obtain ⟨h1, h2, h3, h4⟩ := ihmem t h
            exact ⟨by omega, h2, h3, h4⟩
        · cases htail : tokenizeAux f
            (i + ((c :: cs).takeWhile pyIsWord).length)
            ((c :: cs).dropWhile pyIsWord) with
          | nil => simp
          | cons t0 ts =>
            rw [List.chain'_cons]
            constructor
            · have := (ihmem t0 (by rw [htail]; exact List.mem_cons_self _ _)).1
              simpa using this
            · rw [← htail]; exact ihchain
      · have hdrop' : full.drop (i + 1) = cs := by
          rw [← List.drop_drop, hd]
          rfl
        have hfuel' : cs.length ≤ f := by
          simp only [List.length_cons] at hl
          omega
        obtain ⟨ihmem, ihchain⟩ := ih _ _ hdrop' hfuel'
        have heq : tokenizeAux (f + 1) i (c :: cs)
            = tokenizeAux f (i + 1) cs := by
          simp [tokenizeAux, hw]
        rw [heq]
        refine ⟨fun t ht => ?_, ihchain⟩
        obtain ⟨h1, h2, h3, h4⟩ := ihmem t ht
        exact ⟨by omega, h2, h3, h4⟩

/-- From end <= next start and start < end per token, starts strictly
increase along the token list. -/
lemma tokenChain_strict (l : List Token)
    (hm : ∀ t ∈ l, t.2.1 < t.2.2)
    (hc : List.Chain' (fun t u : Token => t.2.2 ≤ u.2.1) l) :
    List.Chain' (fun t u : Token => t.2.1 < u.2.1) l := by
  induction l with
  | nil => simp
  | cons a l ih =>
    cases l with
    | nil => simp
    | cons b m =>
      rw [List.chain'_cons] at hc ⊢
      refine ⟨?_, ih (fun t ht => hm t (List.mem_cons_of_mem _ ht)) hc.2⟩
      have ha := hm a (List.mem_cons_self _ _)
      omega

/-- C7 (confirmed): every token of tokenize_with_spans is exactly the
substring of the original text at its half-open (start, end) offsets
(end = start + token length and the character slice equals the token text),
tokens are non-degenerate, and they appear in strictly left-to-right order:
each token ends at or before the next one starts, and starts strictly
increase. -/
theorem C7_tokenize_roundtrip :
    ∀ text : String,
      (∀ t ∈ tokenize_with_spans text,
        t.2.1 < t.2.2
        ∧ t.2.2 = t.2.1 + t.1.length
        ∧ (text.data.drop t.2.1).take t.1.length = t.1.data)
      ∧ List.Chain' (fun t u : Token => t.2.2 ≤ u.2.1)
          (tokenize_with_spans text)
      ∧ List.Chain' (fun t u : Token => t.2.1 < u.2.1)
          (tokenize_with_spans text) := by
  intro text
  obtain ⟨hm, hc⟩ := tokenizeAux_spec text.data text.data.length 0 text.data
    rfl (le_refl _)
  have hmem : ∀ t ∈ tokenize_with_spans text,
      t.2.1 < t.2.2 ∧ t.2.2 = t.2.1 + t.1.length
        ∧ (text.data.drop t.2.1).take t.1.length = t.1.data := by
    intro t ht
    obtain ⟨h1, h2, h3, h4⟩ := hm t ht
    exact ⟨by omega, h2, h4⟩
  refine ⟨hmem, hc, ?_⟩
  exact tokenChain_strict _ (fun t ht => (hmem t ht).1) hc

/-- C7 witness: the round-trip theorem applied to "hi, there!" at its first
token ("hi", 0, 2). -/
theorem C7_witness :
    (("hi", 0, 2) : Token) ∈ tokenize_with_spans "hi, there!"
    ∧ ((0 : Nat) < 2
      ∧ (2 : Nat) = 0 + ("hi" : String).length
      ∧ (("hi, there!" : String).data.drop 0).take ("hi" : String).length
        = ("hi" : String).data) :=
  ⟨by decide,
    (C7_tokenize_roundtrip "hi, there!").1 ("hi", 0, 2) (by decide)⟩

/-! ## Span builder lemmas and C6 -/

/-- Every span emitted by the merging loop is non-degenerate and carries
the requested color (invariant: runStart <= prev). -/
lemma runsLoop_mem (base : Nat) (color : String) :
    ∀ (idxs : List Nat) (runStart prev : Nat), runStart ≤ prev →
      ∀ sp ∈ runsLoop base color runStart prev idxs,
        sp.1 < sp.2.1 ∧ sp.2.2 = color := by
  intro idxs
  induction idxs with
  | nil =>
    intro runStart prev hrp sp hsp
    simp only [runsLoop, List.mem_singleton] at hsp
    subst hsp
    refine ⟨?_, rfl⟩
    show base + runStart < base + prev + 1
    omega
  | cons k rest ih =>
    intro runStart prev hrp sp hsp
    simp only [runsLoop] at hsp
    by_cases hk : k = prev + 1
    · rw [if_pos hk] at hsp
      exact ih runStart k (by omega) sp hsp
    · rw [if_neg hk] at hsp
      rcases List.mem_cons.mp hsp with h | h
      · subst h
        refine ⟨?_, rfl⟩
        show base + runStart < base + prev + 1
        omega
      · exact ih k k (le_refl k) sp h


/-- Membership in append_runs: either an old span or a fresh non-degenerate
span of the requested color. -/
lemma append_runs_mem (spans : List Span) (base : Nat) (idxs : List Nat)
    (color : String) :
    ∀ sp ∈ append_runs spans base idxs color,
      sp ∈ spans ∨ (sp.1 < sp.2.1 ∧ sp.2.2 = color) := by
  intro sp hsp
  unfold append_runs at hsp
  cases hs : sortNat idxs with
  | nil => rw [hs] at hsp; exact Or.inl hsp
  | cons k0 rest =>
    rw [hs] at hsp
    rcases List.mem_append.mp hsp with h | h
    · exact Or.inl h
    · exact Or.inr (runsLoop_mem base color rest k0 k0 (le_refl k0) sp h)

/-- Shape of every opcode get_opcodes can emit: the tag is one of the four
difflib tags, and the tag's guard forces the corresponding side range to be
non-empty. -/
lemma opcodesGo_tags :
    ∀ (blocks : List (Nat × Nat × Nat)) (i j : Nat),
      ∀ op ∈ opcodesGo i j blocks,
        (op.1 = "replace" ∨ op.1 = "delete" ∨ op.1 = "insert"
          ∨ op.1 = "equal")
        ∧ (op.1 = "replace" → op.2.1 < op.2.2.1 ∧ op.2.2.2.1 < op.2.2.2.2)
        ∧ (op.1 = "delete" → op.2.1 < op.2.2.1)
        ∧ (op.1 = "insert" → op.2.2.2.1 < op.2.2.2.2)
        ∧ (op.1 = "equal" → op.2.1 < op.2.2.1 ∧ op.2.2.2.1 < op.2.2.2.2)
        := by
  intro blocks
  induction blocks with
  | nil =>
    intro i j op hop
    simp [opcodesGo] at hop
  | cons blk rest ih =>
    intro i j op hop
    obtain ⟨ai, bj, size⟩ := blk
    simp only [opcodesGo] at hop
    rcases List.mem_append.mp hop with hab | hrec
    rcases List.mem_append.mp hab with h | h2
    · -- the tagged (non-equal) opcode, present only when tag ≠ ""
      by_cases hr : i < ai ∧ j < bj
      · rw [if_pos hr] at h
        rw [if_pos (by decide)] at h
        rcases List.mem_singleton.mp h with rfl
        refine ⟨Or.inl rfl, fun _ => ⟨hr.1, hr.2⟩, ?_, ?_, ?_⟩
        all_goals intro hcon; exact absurd hcon (by simp)
      · rw [if_neg hr] at h
        by_cases hd : i < ai
        · rw [if_pos hd] at h
          rw [if_pos (by decide)] at h
          rcases List.mem_singleton.mp h with rfl
          refine ⟨Or.inr (Or.inl rfl), ?_, fun _ => hd, ?_, ?_⟩
          all_goals intro hcon; exact absurd hcon (by simp)
        · rw [if_neg hd] at h
          by_cases hi : j < bj
          · rw [if_pos hi] at h
            rw [if_pos (by decide)] at h
            rcases List.mem_singleton.mp h with rfl
            refine ⟨Or.inr (Or.inr (Or.inl rfl)), ?_, ?_, fun _ => hi, ?_⟩
            all_goals intro hcon; exact absurd hcon (by simp)
          · rw [if_neg hi] at h
            rw [if_neg (by simp)] at h
            simp at h
    · -- the equal opcode, present only when size ≠ 0
      by_cases hsz : size ≠ 0
      · rw [if_pos hsz] at h2
        rcases List.mem_singleton.mp h2 with rfl
        refine ⟨Or.inr (Or.inr (Or.inr rfl)), ?_, ?_, ?_, fun _ => ?_⟩
        · intro hcon; exact absurd hcon (by simp)
        · intro hcon; exact absurd hcon (by simp)
        · intro hcon; exact absurd hcon (by simp)
        · refine ⟨?_, ?_⟩
          · show ai < ai + size
            omega
          · show bj < bj + size
            omega
      · rw [if_neg hsz] at h2
        simp at h2
    · exact ih (ai + size) (bj + size) op hrec

/-- Invariant preservation along the two-sided span-accumulating folds of
the span builder. -/
lemma foldl_span_inv {β : Type}
    (g : List Span × List Span → β → List Span × List Span)
    (P Q : Span → Prop) :
    ∀ (ops : List β),
      (∀ acc, ∀ op ∈ ops, (∀ sp ∈ acc.1, P sp) → (∀ sp ∈ acc.2, Q sp) →
        (∀ sp ∈ (g acc op).1, P sp) ∧ (∀ sp ∈ (g acc op).2, Q sp)) →
      ∀ acc, (∀ sp ∈ acc.1, P sp) → (∀ sp ∈ acc.2, Q sp) →
        (∀ sp ∈ (ops.foldl g acc).1, P sp)
          ∧ (∀ sp ∈ (ops.foldl g acc).2, Q sp) := by
  intro ops
  induction ops with
  | nil => intro _ acc h1 h2; exact ⟨h1, h2⟩
  | cons o os ih =>
    intro hg acc h1 h2
    have hstep := hg acc o (List.mem_cons_self _ _) h1 h2
    exact ih (fun acc' op hop => hg acc' op (List.mem_cons_of_mem _ hop))
      (g acc o) hstep.1 hstep.2

/-- Per-opcode spans of a substitution: the reference side only carries
replace/vowel-delete/consonant-delete colors and the hypothesis side only
replace/insert colors, all spans non-degenerate, given a well-formed
opcode. -/
lemma subOpSpans_spec (refWord : String) (rs hs : Nat) (op : Opcode)
    (htags : (op.1 = "replace" → op.2.1 < op.2.2.1
        ∧ op.2.2.2.1 < op.2.2.2.2)
      ∧ (op.1 = "insert" → op.2.2.2.1 < op.2.2.2.2)) :
    (∀ sp ∈ (subOpSpans refWord rs hs op).1,
      sp.1 < sp.2.1 ∧ (sp.2.2 = COL_REPLACE ∨ sp.2.2 = COL_VOWEL_DEL
        ∨ sp.2.2 = COL_CONS_DEL))
    ∧ (∀ sp ∈ (subOpSpans refWord rs hs op).2,
      sp.1 < sp.2.1 ∧ (sp.2.2 = COL_REPLACE ∨ sp.2.2 = COL_INSERT)) := by
  obtain ⟨tag, i1, i2, j1, j2⟩ := op
  by_cases h0 : tag = "equal"
  · subst h0
    simp [subOpSpans]
  by_cases h1 : tag = "replace"
  · subst h1
    obtain ⟨hi, hj⟩ := htags.1 rfl
    constructor
    · intro sp hsp
      simp [subOpSpans] at hsp
      subst hsp
      exact ⟨by simpa using Nat.add_lt_add_left hi rs, Or.inl rfl⟩
    · intro sp hsp
      simp [subOpSpans] at hsp
      subst hsp
      exact ⟨by simpa using Nat.add_lt_add_left hj hs, Or.inl rfl⟩
  by_cases h2 : tag = "delete"
  · subst h2
    constructor
    · intro sp hsp
      simp only [subOpSpans] at hsp
      rw [if_neg (by simp), if_neg (by simp)] at hsp
      rw [if_pos (by trivial)] at hsp
      rcases append_runs_mem _ _ _ _ sp hsp with hin | ⟨hlt, hcol⟩
      · rcases append_runs_mem _ _ _ _ sp hin with hin2 | ⟨hlt, hcol⟩
        · simp at hin2
        · exact ⟨hlt, Or.inr (Or.inl hcol)⟩
      · exact ⟨hlt, Or.inr (Or.inr hcol)⟩
    · intro sp hsp
      simp only [subOpSpans] at hsp
      rw [if_neg (by simp), if_neg (by simp)] at hsp
      rw [if_pos (by trivial)] at hsp
      simp at hsp
  by_cases h3 : tag = "insert"
  · subst h3
    have hj := htags.2 rfl
    constructor
    · intro sp hsp
      simp [subOpSpans] at hsp
    · intro sp hsp
      simp [subOpSpans] at hsp
      subst hsp
      exact ⟨by simpa using Nat.add_lt_add_left hj hs, Or.inr rfl⟩
  · constructor
    · intro sp hsp
      simp [subOpSpans, h0, h1, h2, h3] at hsp
    · intro sp hsp
      simp [subOpSpans, h0, h1, h2, h3] at hsp

/-- Side/color/positivity invariant of
_char_level_spans_for_substitution. -/
lemma charLevel_spec (rw hw : String) (rs hs : Nat) :
    (∀ sp ∈ (char_level_spans_for_substitution rw hw rs hs).1,
      sp.1 < sp.2.1 ∧ (sp.2.2 = COL_REPLACE ∨ sp.2.2 = COL_VOWEL_DEL
        ∨ sp.2.2 = COL_CONS_DEL))
    ∧ (∀ sp ∈ (char_level_spans_for_substitution rw hw rs hs).2,
      sp.1 < sp.2.1 ∧ (sp.2.2 = COL_REPLACE ∨ sp.2.2 = COL_INSERT)) := by
  unfold char_level_spans_for_substitution
  apply foldl_span_inv
  · intro acc op hop hacc1 hacc2
    have htags := opcodesGo_tags _ 0 0 op hop
    have hsub := subOpSpans_spec rw rs hs op ⟨htags.2.1, htags.2.2.2.1⟩
    constructor
    · intro sp hsp
      rcases List.mem_append.mp hsp with h | h
      · exact hacc1 sp h
      · exact hsub.1 sp h
    · intro sp hsp
      rcases List.mem_append.mp hsp with h | h
      · exact hacc2 sp h
      · exact hsub.2 sp h
  · simp
  · simp

/-- The back-pointer of an inner cell is one of the three moves the source
stores. -/
lemma alignBT_cases (ref hyp : List String) (i j : Nat) :
    alignBT ref hyp (i + 1) (j + 1)
      = ((if alignRefC ref i = alignRefC hyp j then "equal" else "sub"),
        i, j)
    ∨ alignBT ref hyp (i + 1) (j + 1) = ("del", i, j + 1)
    ∨ alignBT ref hyp (i + 1) (j + 1) = ("ins", i + 1, j) := by
  by_cases hco : alignRefC ref i = alignRefC hyp j
  · simp only [alignBT, if_pos hco]
    split_ifs <;> simp_all
  · simp only [alignBT, if_neg hco]
    split_ifs <;> simp_all

/-- Every op emitted by the reconstruction walk carries a tag among
equal/sub/del/ins and in-range token indices on the sides the tag uses. -/
lemma alignWalkF_valid (ref hyp : List String) :
    ∀ f i j, i ≤ ref.length → j ≤ hyp.length →
      ∀ op ∈ alignWalkF ref hyp f i j,
        (op.1 = "equal" ∨ op.1 = "sub" ∨ op.1 = "del" ∨ op.1 = "ins")
        ∧ ((op.1 = "equal" ∨ op.1 = "sub") →
          ∃ ri hj, op.2.1 = some ri ∧ op.2.2 = some hj
            ∧ ri < ref.length ∧ hj < hyp.length)
        ∧ (op.1 = "del" → ∃ ri, op.2.1 = some ri ∧ ri < ref.length)
        ∧ (op.1 = "ins" → ∃ hj, op.2.2 = some hj ∧ hj < hyp.length) := by
  intro f
  induction f with
  | zero =>
    intro i j hi hj op hop
    cases i <;> cases j <;> simp [alignWalkF] at hop
  | succ f ih =>
    intro i j hi hj op hop
    cases i with
    | zero =>
      cases j with
      | zero => simp [alignWalkF] at hop
      | succ j' =>
        simp only [alignWalkF] at hop
        rcases List.mem_cons.mp hop with rfl | h
        · refine ⟨Or.inr (Or.inr (Or.inr rfl)), ?_, ?_, ?_⟩
          · intro hcon
            rcases hcon with h | h <;> exact absurd h (by simp)
          · intro hcon
            exact absurd hcon (by simp)
          · intro _
            exact ⟨j', rfl, by omega⟩
        · exact ih 0 j' (by omega) (by omega) op h
    | succ i' =>
      cases j with
      | zero =>
        simp only [alignWalkF] at hop
        rcases List.mem_cons.mp hop with rfl | h
        · refine ⟨Or.inr (Or.inr (Or.inl rfl)), ?_, ?_, ?_⟩
          · intro hcon
            rcases hcon with h | h <;> exact absurd h (by simp)
          · intro _
            exact ⟨i', rfl, by omega⟩
          · intro hcon
            exact absurd hcon (by simp)
        · exact ih i' 0 (by omega) (by omega) op h
      | succ j' =>
        simp only [alignWalkF] at hop
        rcases alignBT_cases ref hyp i' j' with hbt | hbt | hbt
        · rw [hbt] at hop
          by_cases hco : alignRefC ref i' = alignRefC hyp j'
          · rw [if_pos hco] at hop
            simp only [] at hop
            rw [if_pos (by simp)] at hop
            rcases List.mem_cons.mp hop with rfl | h
            · refine ⟨Or.inl rfl, ?_, ?_, ?_⟩
              · intro _
                exact ⟨i', j', rfl, rfl, by omega, by omega⟩
              · intro hcon
                exact absurd hcon (by simp)
              · intro hcon
                exact absurd hcon (by simp)
            · exact ih i' j' (by omega) (by omega) op h
          · rw [if_neg hco] at hop
            simp only [] at hop
            rw [if_pos (by simp)] at hop
            rcases List.mem_cons.mp hop with rfl | h
            · refine ⟨Or.inr (Or.inl rfl), ?_, ?_, ?_⟩
              · intro _
                exact ⟨i', j', rfl, rfl, by omega, by omega⟩
              · intro hcon
                exact absurd hcon (by simp)
              · intro hcon
                exact absurd hcon (by simp)
            · exact ih i' j' (by omega) (by omega) op h
        · rw [hbt] at hop
          rw [if_neg (by simp), if_pos (by simp)] at hop
          rcases List.mem_cons.mp hop with rfl | h
          · refine ⟨Or.inr (Or.inr (Or.inl rfl)), ?_, ?_, ?_⟩
            · intro hcon
              rcases hcon with h | h <;> exact absurd h (by simp)
            · intro _
              exact ⟨i', rfl, by omega⟩
            · intro hcon
              exact absurd hcon (by simp)
          · exact ih i' (j' + 1) (by omega) (by omega) op h
        · rw [hbt] at hop
          rw [if_neg (by simp), if_neg (by simp), if_pos (by simp)] at hop
          rcases List.mem_cons.mp hop with rfl | h
          · refine ⟨Or.inr (Or.inr (Or.inr rfl)), ?_, ?_, ?_⟩
            · intro hcon
              rcases hcon with h | h <;> exact absurd h (by simp)
            · intro hcon
              exact absurd hcon (by simp)
            · intro _
              exact ⟨j', rfl, by omega⟩
          · exact ih (i' + 1) j' (by omega) (by omega) op h

/-- Index validity for the forward op list of _align_tokens. -/
lemma align_tokens_valid (ref hyp : List String) :
    ∀ op ∈ align_tokens ref hyp,
      (op.1 = "equal" ∨ op.1 = "sub" ∨ op.1 = "del" ∨ op.1 = "ins")
      ∧ ((op.1 = "equal" ∨ op.1 = "sub") →
        ∃ ri hj, op.2.1 = some ri ∧ op.2.2 = some hj
          ∧ ri < ref.length ∧ hj < hyp.length)
      ∧ (op.1 = "del" → ∃ ri, op.2.1 = some ri ∧ ri < ref.length)
      ∧ (op.1 = "ins" → ∃ hj, op.2.2 = some hj ∧ hj < hyp.length) := by
  intro op hop
  unfold align_tokens alignWalk at hop
  rw [List.mem_reverse] at hop
  exact alignWalkF_valid ref hyp _ _ _ (le_refl _) (le_refl _) op hop

/-- Every token the tokenizer produces has start < end. -/
lemma tokenize_pos (text : String) :
    ∀ t ∈ tokenize_with_spans text, t.2.1 < t.2.2 := by
  intro t ht
  obtain ⟨h1, h2, h3, h4⟩ :=
    (tokenizeAux_spec text.data text.data.length 0 text.data rfl
      (le_refl _)).1 t ht
  omega

/-- getD at an in-range index is a member of the list. -/
lemma getD_mem {α : Type} (l : List α) (n : Nat) (d : α)
    (h : n < l.length) : l.getD n d ∈ l := by
  rw [List.getD_eq_getElem l d h]
  exact List.getElem_mem h

/-- C6 (confirmed): the span builder never emits a degenerate span
(start >= end); script-side spans only carry the word-delete, replace,
vowel-delete or consonant-delete categories — in particular never the
inserted-word category — and transcript-side spans only carry the
word-insert, replace or char-insert categories — in particular never the
missing-word (or any delete) category. -/
theorem C6_span_invariants :
    ∀ refText hypText : String,
      (∀ sp ∈ (compute_error_spans_for_display refText hypText).1,
        sp.1 < sp.2.1
        ∧ (sp.2.2 = COL_WORD_DEL ∨ sp.2.2 = COL_REPLACE
          ∨ sp.2.2 = COL_VOWEL_DEL ∨ sp.2.2 = COL_CONS_DEL)
        ∧ sp.2.2 ≠ COL_WORD_INS ∧ sp.2.2 ≠ COL_INSERT)
      ∧ (∀ sp ∈ (compute_error_spans_for_display refText hypText).2,
        sp.1 < sp.2.1
        ∧ (sp.2.2 = COL_WORD_INS ∨ sp.2.2 = COL_REPLACE
          ∨ sp.2.2 = COL_INSERT)
        ∧ sp.2.2 ≠ COL_WORD_DEL ∧ sp.2.2 ≠ COL_VOWEL_DEL
        ∧ sp.2.2 ≠ COL_CONS_DEL) := by
  intro refText hypText
  have hcore :
      (∀ sp ∈ (compute_error_spans_for_display refText hypText).1,
        sp.1 < sp.2.1
        ∧ (sp.2.2 = COL_WORD_DEL ∨ sp.2.2 = COL_REPLACE
          ∨ sp.2.2 = COL_VOWEL_DEL ∨ sp.2.2 = COL_CONS_DEL))
      ∧ (∀ sp ∈ (compute_error_spans_for_display refText hypText).2,
        sp.1 < sp.2.1
        ∧ (sp.2.2 = COL_WORD_INS ∨ sp.2.2 = COL_REPLACE
          ∨ sp.2.2 = COL_INSERT)) := by
    unfold compute_error_spans_for_display
    apply foldl_span_inv
    · intro acc op hop hacc1 hacc2
      have hval := align_tokens_valid _ _ op hop
      constructor
      · intro sp hsp
        split at hsp
        · exact hacc1 sp hsp
        · next ri snd =>
          rcases List.mem_append.mp hsp with h | h
          · exact hacc1 sp h
          · obtain ⟨ri', hsome, hlt⟩ := hval.2.2.1 rfl
            have hri : ri = ri' := Option.some.inj hsome
            subst hri
            rw [List.mem_singleton.mp h]
            have hlen : ri < (tokenize_with_spans refText).length := by
              simpa using hlt
            have hpos := tokenize_pos refText _
              (getD_mem (tokenize_with_spans refText) ri ("", 0, 0) hlen)
            exact ⟨hpos, Or.inl rfl⟩
        · exact hacc1 sp hsp
        · next ri hj =>
          rcases List.mem_append.mp hsp with h | h
          · exact hacc1 sp h
          · obtain ⟨ri', hj', hsome1, hsome2, hlt1, hlt2⟩ :=
              hval.2.1 (Or.inr rfl)
            have hri : ri = ri' := Option.some.inj hsome1
            subst hri
            have hcl := (charLevel_spec
              ((tokenize_with_spans refText).getD ri ("", 0, 0)).1
              ((tokenize_with_spans hypText).getD hj ("", 0, 0)).1
              ((tokenize_with_spans refText).getD ri ("", 0, 0)).2.1
              ((tokenize_with_spans hypText).getD hj ("", 0, 0)).2.1).1 sp h
            refine ⟨hcl.1, ?_⟩
            rcases hcl.2 with h2 | h2 | h2
            · exact Or.inr (Or.inl h2)
            · exact Or.inr (Or.inr (Or.inl h2))
            · exact Or.inr (Or.inr (Or.inr h2))
        · exact hacc1 sp hsp
      · intro sp hsp
        split at hsp
        · exact hacc2 sp hsp
        · exact hacc2 sp hsp
        · next snd hj =>
          rcases List.mem_append.mp hsp with h | h
          · exact hacc2 sp h
          · obtain ⟨hj', hsome, hlt⟩ := hval.2.2.2 rfl
            have hhj : hj = hj' := Option.some.inj hsome
            subst hhj
            rw [List.mem_singleton.mp h]
            have hlen : hj < (tokenize_with_spans hypText).length := by
              simpa using hlt
            have hpos := tokenize_pos hypText _
              (getD_mem (tokenize_with_spans hypText) hj ("", 0, 0) hlen)
            exact ⟨hpos, Or.inl rfl⟩
        · next ri hj =>
          rcases List.mem_append.mp hsp with h | h
          · exact hacc2 sp h
          · obtain ⟨ri', hj', hsome1, hsome2, hlt1, hlt2⟩ :=
              hval.2.1 (Or.inr rfl)
            have hhj : hj = hj' := Option.some.inj hsome2
            subst hhj
            have hcl := (charLevel_spec
              ((tokenize_with_spans refText).getD ri ("", 0, 0)).1
              ((tokenize_with_spans hypText).getD hj ("", 0, 0)).1
              ((tokenize_with_spans refText).getD ri ("", 0, 0)).2.1
              ((tokenize_with_spans hypText).getD hj ("", 0, 0)).2.1).2 sp h
            refine ⟨hcl.1, ?_⟩
            rcases hcl.2 with h2 | h2
            · exact Or.inr (Or.inl h2)
            · exact Or.inr (Or.inr h2)
        · exact hacc2 sp hsp
    · simp
    · simp
  constructor
  · intro sp hsp
    obtain ⟨hpos, hcol⟩ := hcore.1 sp hsp
    refine ⟨hpos, hcol, ?_, ?_⟩ <;>
      rcases hcol with h | h | h | h <;> rw [h] <;> decide
  · intro sp hsp
    obtain ⟨hpos, hcol⟩ := hcore.2 sp hsp
    refine ⟨hpos, hcol, ?_, ?_, ?_⟩ <;>
      rcases hcol with h | h | h <;> rw [h] <;> decide

/-- C6 witness: the invariant theorem applied to a concrete text pair that
produces a missing-word span on the script side. -/
theorem C6_witness :
    ((4, 7, COL_WORD_DEL) : Span)
      ∈ (compute_error_spans_for_display "the cat" "the").1
    ∧ ((4 : Nat) < 7
      ∧ (COL_WORD_DEL = COL_WORD_DEL ∨ COL_WORD_DEL = COL_REPLACE
        ∨ COL_WORD_DEL = COL_VOWEL_DEL ∨ COL_WORD_DEL = COL_CONS_DEL)
      ∧ COL_WORD_DEL ≠ COL_WORD_INS ∧ COL_WORD_DEL ≠ COL_INSERT) :=
  ⟨by decide,
    (C6_span_invariants "the cat" "the").1 (4, 7, COL_WORD_DEL) (by decide)⟩

/-! ## Merged-run lemmas and C8 -/

/-- Sorting an already strictly ascending list is the identity. -/
lemma sortNat_of_chain :
    ∀ l : List Nat, List.Chain' (· < ·) l → sortNat l = l := by
  intro l
  induction l with
  | nil => intro _; rfl
  | cons x xs ih =>
    intro hc
    have hxs : sortNat xs = xs := ih (List.Chain'.tail hc)
    show insertAsc x (sortNat xs) = x :: xs
    rw [hxs]
    cases xs with
    | nil => rfl
    | cons y ys =>
      have hxy : x < y := List.chain'_cons.mp hc |>.1
      show insertAsc x (y :: ys) = x :: y :: ys
      unfold insertAsc
      rw [if_pos (by omega)]

/-- Positions covered by the merging loop: exactly the seed interval
[runStart, prev] plus the remaining (ascending) indexes. -/
lemma runsLoop_covers (base : Nat) (color : String) :
    ∀ (idxs : List Nat) (runStart prev : Nat),
      List.Chain' (· < ·) (prev :: idxs) → runStart ≤ prev →
      ∀ x, (∃ sp ∈ runsLoop base color runStart prev idxs,
          sp.1 ≤ x ∧ x < sp.2.1)
        ↔ ∃ k, x = base + k ∧ ((runStart ≤ k ∧ k ≤ prev) ∨ k ∈ idxs) := by
  intro idxs
  induction idxs with
  | nil =>
    intro runStart prev hc hrp x
    constructor
    · rintro ⟨sp, hsp, hle, hlt⟩
      simp only [runsLoop, List.mem_singleton] at hsp
      subst hsp
      simp only at hle hlt
      exact ⟨x - base, by omega, Or.inl (by omega)⟩
    · rintro ⟨k, rfl, hk | hk⟩
      · refine ⟨(base + runStart, base + prev + 1, color),
          by simp [runsLoop], ?_, ?_⟩ <;> simp <;> omega
      · simp at hk
  | cons k rest ih =>
    intro runStart prev hc hrp x
    have hpk : prev < k := (List.chain'_cons.mp hc).1
    have hcrest : List.Chain' (· < ·) (k :: rest) :=
      (List.chain'_cons.mp hc).2
    by_cases hk : k = prev + 1
    · have heq : runsLoop base color runStart prev (k :: rest)
          = runsLoop base color runStart k rest := by
        simp only [runsLoop, if_pos hk]
      rw [heq, ih runStart k hcrest (by omega) x]
      constructor
      · rintro ⟨k', rfl, h | h⟩
        · by_cases hk' : k' ≤ prev
          · exact ⟨k', rfl, Or.inl ⟨h.1, hk'⟩⟩
          · have : k' = k := by omega
            subst this
            exact ⟨k', rfl, Or.inr (List.mem_cons_self _ _)⟩
        · exact ⟨k', rfl, Or.inr (List.mem_cons_of_mem _ h)⟩
      · rintro ⟨k', rfl, h | h⟩
        · exact ⟨k', rfl, Or.inl ⟨h.1, by omega⟩⟩
        · rcases List.mem_cons.mp h with rfl | h
          · exact ⟨k', rfl, Or.inl ⟨by omega, by omega⟩⟩
          · exact ⟨k', rfl, Or.inr h⟩
    · have heq : runsLoop base color runStart prev (k :: rest)
          = (base + runStart, base + prev + 1, color)
            :: runsLoop base color k k rest := by
        simp only [runsLoop, if_neg hk]
      rw [heq]
      constructor
      · rintro ⟨sp, hsp, hle, hlt⟩
        rcases List.mem_cons.mp hsp with rfl | hsp'
        · simp only at hle hlt
          exact ⟨x - base, by omega, Or.inl (by omega)⟩
        · obtain ⟨k', rfl, h | h⟩ :=
            (ih k k hcrest (le_refl k) x).mp ⟨sp, hsp', hle, hlt⟩
          · have : k' = k := by omega
            subst this
            exact ⟨k', rfl, Or.inr (List.mem_cons_self _ _)⟩
          · exact ⟨k', rfl, Or.inr (List.mem_cons_of_mem _ h)⟩
      · rintro ⟨k', rfl, h | h⟩
        · refine ⟨(base + runStart, base + prev + 1, color),
            List.mem_cons_self _ _, ?_, ?_⟩ <;> simp <;> omega
        · rcases List.mem_cons.mp h with rfl | h
          · obtain ⟨sp, hsp, hcov⟩ :=
              (ih k' k' hcrest (le_refl k') (base + k')).mpr
                ⟨k', rfl, Or.inl ⟨le_refl _, le_refl _⟩⟩
            exact ⟨sp, List.mem_cons_of_mem _ hsp, hcov⟩
          · obtain ⟨sp, hsp, hcov⟩ :=
              (ih k k hcrest (le_refl k) (base + k')).mpr
                ⟨k', rfl, Or.inr h⟩
            exact ⟨sp, List.mem_cons_of_mem _ hsp, hcov⟩

/-- Every span of the merging loop starts at or after base + runStart. -/
lemma runsLoop_start_ge (base : Nat) (color : String) :
    ∀ (idxs : List Nat) (runStart prev : Nat),
      List.Chain' (· < ·) (prev :: idxs) → runStart ≤ prev →
      ∀ sp ∈ runsLoop base color runStart prev idxs,
        base + runStart ≤ sp.1 := by
  intro idxs
  induction idxs with
  | nil =>
    intro runStart prev hc hrp sp hsp
    simp only [runsLoop, List.mem_singleton] at hsp
    subst hsp
    simp
  | cons k rest ih =>
    intro runStart prev hc hrp sp hsp
    have hpk : prev < k := (List.chain'_cons.mp hc).1
    have hcrest := (List.chain'_cons.mp hc).2
    simp only [runsLoop] at hsp
    by_cases hk : k = prev + 1
    · rw [if_pos hk] at hsp
      exact ih runStart k hcrest (by omega) sp hsp
    · rw [if_neg hk] at hsp
      rcases List.mem_cons.mp hsp with rfl | h
      · simp
      · have := ih k k hcrest (le_refl k) sp h
        omega

/-- Consecutive spans of the merging loop are separated by a gap: each span
ends strictly before the next begins (no adjacent or overlapping spans,
i.e. consecutive indexes are coalesced, never one span per character). -/
lemma runsLoop_gaps (base : Nat) (color : String) :
    ∀ (idxs : List Nat) (runStart prev : Nat),
      List.Chain' (· < ·) (prev :: idxs) → runStart ≤ prev →
      List.Chain' (fun s t : Span => s.2.1 < t.1)
        (runsLoop base color runStart prev idxs) := by
  intro idxs
  induction idxs with
  | nil => intro runStart prev _ _; simp [runsLoop]
  | cons k rest ih =>
    intro runStart prev hc hrp
    have hpk : prev < k := (List.chain'_cons.mp hc).1
    have hcrest := (List.chain'_cons.mp hc).2
    simp only [runsLoop]
    by_cases hk : k = prev + 1
    · rw [if_pos hk]
      exact ih runStart k hcrest (by omega)
    · rw [if_neg hk]
      rw [List.chain'_cons']
      constructor
      · intro b hb
        have hbmem : b ∈ runsLoop base color k k rest := by
          cases hrl : runsLoop base color k k rest with
          | nil => rw [hrl] at hb; simp at hb
          | cons t0 ts =>
            rw [hrl] at hb
            simp at hb
            subst hb
            exact List.mem_cons_self _ _
        have := runsLoop_start_ge base color rest k k hcrest (le_refl k)
          b hbmem
        show (base + runStart, base + prev + 1, color).2.1 < b.1
        simp only
        omega
      · exact ih k k hcrest (le_refl k)

/-- Coverage of append_runs on an empty accumulator and ascending indexes:
exactly the shifted index set. -/
lemma append_runs_covers (base : Nat) (idxs : List Nat) (color : String)
    (hs : List.Chain' (· < ·) idxs) :
    ∀ x, (∃ sp ∈ append_runs [] base idxs color, sp.1 ≤ x ∧ x < sp.2.1)
      ↔ ∃ k ∈ idxs, x = base + k := by
  intro x
  unfold append_runs
  rw [sortNat_of_chain idxs hs]
  cases idxs with
  | nil => simp
  | cons k0 rest =>
    show (∃ sp ∈ ([] : List Span) ++ runsLoop base color k0 k0 rest,
        sp.1 ≤ x ∧ x < sp.2.1) ↔ _
    rw [List.nil_append,
      runsLoop_covers base color rest k0 k0 hs (le_refl k0) x]
    constructor
    · rintro ⟨k, rfl, h | h⟩
      · have : k = k0 := by omega
        subst this
        exact ⟨k, List.mem_cons_self _ _, rfl⟩
      · exact ⟨k, List.mem_cons_of_mem _ h, rfl⟩
    · rintro ⟨k, hk, rfl⟩
      rcases List.mem_cons.mp hk with rfl | h
      · exact ⟨k, rfl, Or.inl ⟨le_refl _, le_refl _⟩⟩
      · exact ⟨k, rfl, Or.inr h⟩

/-- Gap property of append_runs on an empty accumulator. -/
lemma append_runs_gaps (base : Nat) (idxs : List Nat) (color : String)
    (hs : List.Chain' (· < ·) idxs) :
    List.Chain' (fun s t : Span => s.2.1 < t.1)
      (append_runs [] base idxs color) := by
  unfold append_runs
  rw [sortNat_of_chain idxs hs]
  cases idxs with
  | nil => simp
  | cons k0 rest =>
    show List.Chain' (fun s t : Span => s.2.1 < t.1)
      (([] : List Span) ++ runsLoop base color k0 k0 rest)
    rw [List.nil_append]
    exact runsLoop_gaps base color rest k0 k0 hs (le_refl k0)

/-- The delete branch of the substitution span builder, as an equation. -/
lemma subOpSpans_delete (rw : String) (rs hs i1 i2 j1 j2 : Nat) :
    subOpSpans rw rs hs ("delete", i1, i2, j1, j2)
      = (append_runs
          (append_runs [] rs
            ((List.range' i1 (i2 - i1)).filter
              (fun k => (rw.data.getD k ' ').toLower ∈ VOWELS))
            COL_VOWEL_DEL)
          rs
          ((List.range' i1 (i2 - i1)).filter
            (fun k => ¬(rw.data.getD k ' ').toLower ∈ VOWELS))
          COL_CONS_DEL,
        []) := by
  simp only [subOpSpans]
  rw [if_neg (by simp), if_neg (by simp)]
  rw [if_pos (by trivial)]

/-- range' is strictly ascending. -/
lemma pairwise_lt_range'' :
    ∀ (n s : Nat), List.Pairwise (· < ·) (List.range' s n) := by
  intro n
  induction n with
  | zero => intro s; simp
  | succ n ih =>
    intro s
    rw [List.range'_succ]
    refine List.Pairwise.cons ?_ (ih (s + 1))
    intro x hx
    have := (List.mem_range'_1.mp hx).1
    omega

/-- append_runs only ever appends to its spans argument. -/
lemma append_runs_eq_append (spans : List Span) (base : Nat)
    (idxs : List Nat) (color : String) :
    append_runs spans base idxs color
      = spans ++ append_runs [] base idxs color := by
  unfold append_runs
  cases sortNat idxs with
  | nil => simp
  | cons k0 rest => simp

/-- Fresh spans of append_runs over an empty accumulator: non-degenerate
and of the requested color. -/
lemma append_runs_nil_color (base : Nat) (idxs : List Nat) (color : String) :
    ∀ sp ∈ append_runs [] base idxs color,
      sp.1 < sp.2.1 ∧ sp.2.2 = color := by
  intro sp hsp
  rcases append_runs_mem [] base idxs color sp hsp with h | h
  · simp at h
  · exact h

/-- C8 (confirmed): for every substituted word pair, each delete opcode of
the character diff partitions the deleted reference character indices into
the vowel subset (a/e/i/o/u) and its complement; the contribution to the
spans is reference-side only (hypothesis side empty), consists of the
merged runs of each subset under two distinct categories, and within each
category the emitted spans cover exactly the shifted subset with a strict
gap between consecutive spans (consecutive indices are coalesced, never one
span per character). -/
theorem C8_delete_vowel_runs :
    ∀ (rw hw : String) (rs hs i1 i2 j1 j2 : Nat),
      ("delete", i1, i2, j1, j2)
          ∈ get_opcodes (pyLower rw).data (pyLower hw).data →
      (char_level_spans_for_substitution rw hw rs hs
        = (get_opcodes (pyLower rw).data (pyLower hw).data).foldl
            (fun acc op =>
              (acc.1 ++ (subOpSpans rw rs hs op).1,
                acc.2 ++ (subOpSpans rw rs hs op).2)) ([], []))
      ∧ (∀ k, (k ∈ (List.range' i1 (i2 - i1)).filter
              (fun k => (rw.data.getD k ' ').toLower ∈ VOWELS)
            ∨ k ∈ (List.range' i1 (i2 - i1)).filter
              (fun k => ¬(rw.data.getD k ' ').toLower ∈ VOWELS))
          ↔ k ∈ List.range' i1 (i2 - i1))
      ∧ (∀ k, ¬(k ∈ (List.range' i1 (i2 - i1)).filter
              (fun k => (rw.data.getD k ' ').toLower ∈ VOWELS)
            ∧ k ∈ (List.range' i1 (i2 - i1)).filter
              (fun k => ¬(rw.data.getD k ' ').toLower ∈ VOWELS)))
      ∧ (subOpSpans rw rs hs ("delete", i1, i2, j1, j2)).2 = []
      ∧ (subOpSpans rw rs hs ("delete", i1, i2, j1, j2)).1
        = append_runs [] rs
            ((List.range' i1 (i2 - i1)).filter
              (fun k => (rw.data.getD k ' ').toLower ∈ VOWELS))
            COL_VOWEL_DEL
          ++ append_runs [] rs
            ((List.range' i1 (i2 - i1)).filter
              (fun k => ¬(rw.data.getD k ' ').toLower ∈ VOWELS))
            COL_CONS_DEL
      ∧ (∀ x, (∃ sp ∈ (subOpSpans rw rs hs ("delete", i1, i2, j1, j2)).1,
            sp.2.2 = COL_VOWEL_DEL ∧ sp.1 ≤ x ∧ x < sp.2.1)
          ↔ ∃ k ∈ (List.range' i1 (i2 - i1)).filter
              (fun k => (rw.data.getD k ' ').toLower ∈ VOWELS),
              x = rs + k)
      ∧ (∀ x, (∃ sp ∈ (subOpSpans rw rs hs ("delete", i1, i2, j1, j2)).1,
            sp.2.2 = COL_CONS_DEL ∧ sp.1 ≤ x ∧ x < sp.2.1)
          ↔ ∃ k ∈ (List.range' i1 (i2 - i1)).filter
              (fun k => ¬(rw.data.getD k ' ').toLower ∈ VOWELS),
              x = rs + k)
      ∧ List.Chain' (fun s t : Span => s.2.1 < t.1)
          ((subOpSpans rw rs hs ("delete", i1, i2, j1, j2)).1.filter
            (fun sp => sp.2.2 = COL_VOWEL_DEL))
      ∧ List.Chain' (fun s t : Span => s.2.1 < t.1)
          ((subOpSpans rw rs hs ("delete", i1, i2, j1, j2)).1.filter
            (fun sp => sp.2.2 = COL_CONS_DEL))
      ∧ COL_VOWEL_DEL ≠ COL_CONS_DEL := by
  intro rw hw rs hs i1 i2 j1 j2 hmem
  have hpw : List.Pairwise (· < ·) (List.range' i1 (i2 - i1)) :=
    pairwise_lt_range'' _ _
  have hVchain : List.Chain' (· < ·)
      ((List.range' i1 (i2 - i1)).filter
        (fun k => (rw.data.getD k ' ').toLower ∈ VOWELS)) :=
    (hpw.sublist (List.filter_sublist _)).chain'
  have hCchain : List.Chain' (· < ·)
      ((List.range' i1 (i2 - i1)).filter
        (fun k => ¬(rw.data.getD k ' ').toLower ∈ VOWELS)) :=
    (hpw.sublist (List.filter_sublist _)).chain'
  have hsplit : (subOpSpans rw rs hs ("delete", i1, i2, j1, j2)).1
      = append_runs [] rs
          ((List.range' i1 (i2 - i1)).filter
            (fun k => (rw.data.getD k ' ').toLower ∈ VOWELS))
          COL_VOWEL_DEL
        ++ append_runs [] rs
          ((List.range' i1 (i2 - i1)).filter
            (fun k => ¬(rw.data.getD k ' ').toLower ∈ VOWELS))
          COL_CONS_DEL := by
    rw [subOpSpans_delete]
    exact append_runs_eq_append _ _ _ _
  refine ⟨rfl, ?_, ?_, ?_, hsplit, ?_, ?_, ?_, ?_, by decide⟩
  · intro k
    simp only [List.mem_filter, decide_eq_true_eq]
    constructor
    · rintro (⟨h, _⟩ | ⟨h, _⟩) <;> exact h
    · intro h
      by_cases hv : (rw.data.getD k ' ').toLower ∈ VOWELS
      · exact Or.inl ⟨h, by simpa using hv⟩
      · exact Or.inr ⟨h, by simpa using hv⟩
  · rintro k ⟨h1, h2⟩
    simp only [List.mem_filter, decide_eq_true_eq] at h1 h2
    exact absurd h1.2 h2.2
  · rw [subOpSpans_delete]
  · intro x
    constructor
    · rintro ⟨sp, hsp, hcol, hle, hlt⟩
      rw [hsplit] at hsp
      rcases List.mem_append.mp hsp with h | h
      · exact (append_runs_covers rs _ COL_VOWEL_DEL hVchain x).mp
          ⟨sp, h, hle, hlt⟩
      · have := (append_runs_nil_color rs _ COL_CONS_DEL sp h).2
        rw [this] at hcol
        exact absurd hcol (by decide)
    · rintro ⟨k, hk, rfl⟩
      obtain ⟨sp, hsp, hle, hlt⟩ :=
        (append_runs_covers rs _ COL_VOWEL_DEL hVchain (rs + k)).mpr
          ⟨k, hk, rfl⟩
      refine ⟨sp, ?_, (append_runs_nil_color rs _ COL_VOWEL_DEL sp hsp).2,
        hle, hlt⟩
      rw [hsplit]
      exact List.mem_append_left _ hsp
  · intro x
    constructor
    · rintro ⟨sp, hsp, hcol, hle, hlt⟩
      rw [hsplit] at hsp
      rcases List.mem_append.mp hsp with h | h
      · have := (append_runs_nil_color rs _ COL_VOWEL_DEL sp h).2
        rw [this] at hcol
        exact absurd hcol (by decide)
      · exact (append_runs_covers rs _ COL_CONS_DEL hCchain x).mp
          ⟨sp, h, hle, hlt⟩
    · rintro ⟨k, hk, rfl⟩
      obtain ⟨sp, hsp, hle, hlt⟩ :=
        (append_runs_covers rs _ COL_CONS_DEL hCchain (rs + k)).mpr
          ⟨k, hk, rfl⟩
      refine ⟨sp, ?_, (append_runs_nil_color rs _ COL_CONS_DEL sp hsp).2,
        hle, hlt⟩
      rw [hsplit]
      exact List.mem_append_right _ hsp
  · rw [hsplit, List.filter_append]
    have hfV : (append_runs [] rs
        ((List.range' i1 (i2 - i1)).filter
          (fun k => (rw.data.getD k ' ').toLower ∈ VOWELS))
        COL_VOWEL_DEL).filter (fun sp => sp.2.2 = COL_VOWEL_DEL)
        = append_runs [] rs
          ((List.range' i1 (i2 - i1)).filter
            (fun k => (rw.data.getD k ' ').toLower ∈ VOWELS))
          COL_VOWEL_DEL := by
      apply List.filter_eq_self.mpr
      intro sp hsp
      simp [(append_runs_nil_color rs _ COL_VOWEL_DEL sp hsp).2]
    have hfC : (append_runs [] rs
        ((List.range' i1 (i2 - i1)).filter
          (fun k => ¬(rw.data.getD k ' ').toLower ∈ VOWELS))
        COL_CONS_DEL).filter (fun sp => sp.2.2 = COL_VOWEL_DEL) = [] := by
      apply List.filter_eq_nil_iff.mpr
      intro sp hsp
      simp [(append_runs_nil_color rs _ COL_CONS_DEL sp hsp).2,
        COL_CONS_DEL, COL_VOWEL_DEL]
    rw [hfV, hfC, List.append_nil]
    exact append_runs_gaps rs _ COL_VOWEL_DEL hVchain
  · rw [hsplit, List.filter_append]
    have hfV : (append_runs [] rs
        ((List.range' i1 (i2 - i1)).filter
          (fun k => (rw.data.getD k ' ').toLower ∈ VOWELS))
        COL_VOWEL_DEL).filter (fun sp => sp.2.2 = COL_CONS_DEL) = [] := by
      apply List.filter_eq_nil_iff.mpr
      intro sp hsp
      simp [(append_runs_nil_color rs _ COL_VOWEL_DEL sp hsp).2,
        COL_CONS_DEL, COL_VOWEL_DEL]
    have hfC : (append_runs [] rs
        ((List.range' i1 (i2 - i1)).filter
          (fun k => ¬(rw.data.getD k ' ').toLower ∈ VOWELS))
        COL_CONS_DEL).filter (fun sp => sp.2.2 = COL_CONS_DEL)
        = append_runs [] rs
          ((List.range' i1 (i2 - i1)).filter
            (fun k => ¬(rw.data.getD k ' ').toLower ∈ VOWELS))
          COL_CONS_DEL := by
      apply List.filter_eq_self.mpr
      intro sp hsp
      simp [(append_runs_nil_color rs _ COL_CONS_DEL sp hsp).2]
    rw [hfV, hfC, List.nil_append]
    exact append_runs_gaps rs _ COL_CONS_DEL hCchain

/-- C8 witness: the delete-run theorem applied to the substituted pair
"cat" vs "ct", whose character diff deletes the vowel "a" at index 1. -/
theorem C8_witness :
    (("delete", 1, 2, 1, 1) : Opcode)
        ∈ get_opcodes (pyLower "cat").data (pyLower "ct").data
    ∧ (subOpSpans "cat" 0 0 ("delete", 1, 2, 1, 1)).2 = []
    ∧ List.Chain' (fun s t : Span => s.2.1 < t.1)
        ((subOpSpans "cat" 0 0 ("delete", 1, 2, 1, 1)).1.filter
          (fun sp => sp.2.2 = COL_VOWEL_DEL)) :=
  ⟨by decide,
    (C8_delete_vowel_runs "cat" "ct" 0 0 1 2 1 1 (by decide)).2.2.2.1,
    (C8_delete_vowel_runs "cat" "ct" 0 0 1 2 1 1
      (by decide)).2.2.2.2.2.2.2.1⟩

/-! ## C9 -/

/-- The ranges list records, cursor-consecutively, the half-open character
interval of each kept segment together with its
(start, end-defaulting-to-start) times. -/
def RangesFrom : Nat → List Segment → List (Nat × Nat × ℚ × ℚ) → Prop
  | _, [], rs => rs = []
  | c, s :: ss, rs =>
    ∃ rest, rs = (c, c + s.text.length, s.start.getD 0,
        s.stop.getD (s.start.getD 0)) :: rest
      ∧ RangesFrom (c + s.text.length) ss rest

/-- The loop of build_transcript_from_segments keeps exactly the segments
with non-empty text, collects their texts in order, and lays out their
ranges consecutively from the cursor. -/
lemma buildGo_spec :
    ∀ (segs : List Segment) (cursor : Nat),
      (buildGo cursor segs).1
        = (segs.filter (fun s => s.text ≠ "")).map (fun s => s.text)
      ∧ (buildGo cursor segs).2.1 = segs.filter (fun s => s.text ≠ "")
      ∧ RangesFrom cursor (segs.filter (fun s => s.text ≠ ""))
          (buildGo cursor segs).2.2 := by
  intro segs
  induction segs with
  | nil => intro c; exact ⟨rfl, rfl, rfl⟩
  | cons s ss ih =>
    intro c
    by_cases hs : s.text = ""
    · have hf : (s :: ss).filter (fun s => s.text ≠ "")
          = ss.filter (fun s => s.text ≠ "") := by
        simp [List.filter_cons, hs]
      have hb : buildGo c (s :: ss) = buildGo c ss := by
        simp only [buildGo, if_pos hs]
      rw [hf, hb]
      exact ih c
    · have hf : (s :: ss).filter (fun s => s.text ≠ "")
          = s :: ss.filter (fun s => s.text ≠ "") := by
        simp [List.filter_cons, hs]
      obtain ⟨ih1, ih2, ih3⟩ := ih (c + s.text.length)
      have hb : buildGo c (s :: ss)
          = (s.text :: (buildGo (c + s.text.length) ss).1,
            s :: (buildGo (c + s.text.length) ss).2.1,
            (c, c + s.text.length, s.start.getD 0,
              s.stop.getD (s.start.getD 0))
              :: (buildGo (c + s.text.length) ss).2.2) := by
        simp only [buildGo, if_neg hs]
      rw [hf, hb]
      refine ⟨by rw [List.map_cons, ih1], by rw [ih2], ?_⟩
      exact ⟨(buildGo (c + s.text.length) ss).2.2, rfl, ih3⟩

/-- C9 (confirmed): build_transcript_from_segments concatenates kept
segment texts verbatim with no separator, skipping empty-text segments,
and records consecutive half-open character ranges with the segment times
(active index -1); on the concrete two-segment scenario it yields
"hello world" with ranges (0,6,0,1/2) and (6,11,7/10,11/10), the augmented
pause_before values are 0 and 1/5 (= 0.2 s), and the average confidence is
37/40 (= 0.925). -/
theorem C9_segment_mapper :
    (∀ segs : List Segment,
      (build_transcript_from_segments segs).1
        = String.join ((segs.filter (fun s => s.text ≠ "")).map
            (fun s => s.text))
      ∧ (build_transcript_from_segments segs).2.1
        = segs.filter (fun s => s.text ≠ "")
      ∧ RangesFrom 0 (segs.filter (fun s => s.text ≠ ""))
          (build_transcript_from_segments segs).2.2.1
      ∧ (build_transcript_from_segments segs).2.2.2 = -1)
    ∧ build_transcript_from_segments
        [⟨"hello ", some 0, some (1/2), some (-1/10)⟩,
          ⟨"world", some (7/10), some (11/10), some (-1/20)⟩]
      = ("hello world",
        [⟨"hello ", some 0, some (1/2), some (-1/10)⟩,
          ⟨"world", some (7/10), some (11/10), some (-1/20)⟩],
        [(0, 6, 0, 1/2), (6, 11, 7/10, 11/10)], -1)
    ∧ ((augment_segments_and_fluency
        [⟨"hello ", some 0, some (1/2), some (-1/10)⟩,
          ⟨"world", some (7/10), some (11/10), some (-1/20)⟩]
        "hello world").segs.map (fun a => a.pause_before) = [0, 1/5])
    ∧ (augment_segments_and_fluency
        [⟨"hello ", some 0, some (1/2), some (-1/10)⟩,
          ⟨"world", some (7/10), some (11/10), some (-1/20)⟩]
        "hello world").avg_conf = some (37/40)
    ∧ (37 : ℚ) / 40 = 925 / 1000 := by
  refine ⟨?_, ?_, ?_, ?_, by norm_num⟩
  · intro segs
    obtain ⟨h1, h2, h3⟩ := buildGo_spec segs 0
    exact ⟨by rw [show (build_transcript_from_segments segs).1
        = String.join (buildGo 0 segs).1 from rfl, h1],
      h2, h3, rfl⟩
  · rfl
  · simp only [augment_segments_and_fluency, augmentLoop,
      norm_conf_from_logprob]
    norm_num
  · simp only [augment_segments_and_fluency, augmentLoop,
      norm_conf_from_logprob]
    norm_num
    intro h
    simp at h

/-! ## C10 -/

/-- findFirstIdx finds the first satisfying index (offset by the start). -/
lemma findFirstIdx_some (p : (Nat × Nat × ℚ × ℚ) → Bool) :
    ∀ (l : List (Nat × Nat × ℚ × ℚ)) (i0 j : Nat), j < l.length →
      p (l.getD j (0, 0, 0, 0)) = true →
      (∀ j', j' < j → p (l.getD j' (0, 0, 0, 0)) = false) →
      findFirstIdx p i0 l = some (i0 + j) := by
  intro l
  induction l with
  | nil => intro i0 j hj; simp at hj
  | cons r rest ih =>
    intro i0 j hj hp hmin
    cases j with
    | zero =>
      have : p r = true := hp
      simp [findFirstIdx, this]
    | succ j' =>
      have hr : p r = false := hmin 0 (Nat.succ_pos j')
      have heq : findFirstIdx p i0 (r :: rest)
          = findFirstIdx p (i0 + 1) rest := by
        simp [findFirstIdx, hr]
      rw [heq, ih (i0 + 1) j' (by simpa using hj) hp
        (fun j'' hj'' => hmin (j'' + 1) (by omega))]
      congr 1
      omega

/-- findFirstIdx on a list with no satisfying element. -/
lemma findFirstIdx_none (p : (Nat × Nat × ℚ × ℚ) → Bool) :
    ∀ (l : List (Nat × Nat × ℚ × ℚ)) (i0 : Nat),
      (∀ x ∈ l, p x = false) → findFirstIdx p i0 l = none := by
  intro l
  induction l with
  | nil => intro i0 _; rfl
  | cons r rest ih =>
    intro i0 hall
    have hr : p r = false := hall r (List.mem_cons_self _ _)
    simp only [findFirstIdx, hr]
    simp only [Bool.false_eq_true, if_false]
    exact ih (i0 + 1) (fun x hx => hall x (List.mem_cons_of_mem _ hx))

/-- The folded tuple minimum is a member of the candidate list. -/
lemma lexMinPair_mem :
    ∀ (t : List (Nat × Nat)) (h : Nat × Nat), lexMinPair h t ∈ h :: t := by
  intro t
  induction t with
  | nil => intro h; exact List.mem_cons_self _ _
  | cons c cs ih =>
    intro h
    show lexMinPair (if c.1 < h.1 ∨ (c.1 = h.1 ∧ c.2 < h.2) then c else h)
      cs ∈ h :: c :: cs
    rcases List.mem_cons.mp
        (ih (if c.1 < h.1 ∨ (c.1 = h.1 ∧ c.2 < h.2) then c else h)) with
      heq | hmem
    · rw [heq]
      split_ifs
      · exact List.mem_cons_of_mem _ (List.mem_cons_self _ _)
      · exact List.mem_cons_self _ _
    · exact List.mem_cons_of_mem _ (List.mem_cons_of_mem _ hmem)

/-- The folded tuple minimum has minimal first component. -/
lemma lexMinPair_min :
    ∀ (t : List (Nat × Nat)) (h : Nat × Nat),
      (lexMinPair h t).1 ≤ h.1 ∧ ∀ c ∈ t, (lexMinPair h t).1 ≤ c.1 := by
  intro t
  induction t with
  | nil => intro h; exact ⟨le_refl _, by simp⟩
  | cons c cs ih =>
    intro h
    have hstep : lexMinPair h (c :: cs)
        = lexMinPair (if c.1 < h.1 ∨ (c.1 = h.1 ∧ c.2 < h.2) then c else h)
          cs := rfl
    obtain ⟨ih1, ih2⟩ :=
      ih (if c.1 < h.1 ∨ (c.1 = h.1 ∧ c.2 < h.2) then c else h)
    constructor
    · rw [hstep]
      split_ifs at ih1 ⊢ with hcond
      · omega
      · exact ih1
    · intro d hd
      rcases List.mem_cons.mp hd with rfl | hd'
      · rw [hstep]
        split_ifs at ih1 ⊢ with hcond
        · exact ih1
        · omega
      · rw [hstep]
        exact ih2 d hd'


/-- C10 (confirmed): the click-to-segment lookup tests containment with a
closed interval (start <= pos <= end) and picks the first containing range
in order — so a position at the shared boundary of two consecutive ranges
resolves to the earlier one — and, when no range contains the position,
picks a range whose integer midpoint (start + end) / 2 is numerically
closest to the position. -/
theorem C10_click_lookup :
    (∀ (ranges : List (Nat × Nat × ℚ × ℚ)) (pos j : Nat),
      j < ranges.length →
      ((ranges.getD j (0, 0, 0, 0)).1 ≤ pos
        ∧ pos ≤ (ranges.getD j (0, 0, 0, 0)).2.1) →
      (∀ j', j' < j →
        ¬((ranges.getD j' (0, 0, 0, 0)).1 ≤ pos
          ∧ pos ≤ (ranges.getD j' (0, 0, 0, 0)).2.1)) →
      jump_to_transcript_char ranges pos = some j)
    ∧ (∀ (ranges : List (Nat × Nat × ℚ × ℚ)) (pos j : Nat),
      j + 1 < ranges.length →
      (ranges.getD j (0, 0, 0, 0)).1 ≤ pos →
      (ranges.getD j (0, 0, 0, 0)).2.1 = pos →
      (ranges.getD (j + 1) (0, 0, 0, 0)).1 = pos →
      (∀ j', j' < j →
        ¬((ranges.getD j' (0, 0, 0, 0)).1 ≤ pos
          ∧ pos ≤ (ranges.getD j' (0, 0, 0, 0)).2.1)) →
      jump_to_transcript_char ranges pos = some j)
    ∧ (∀ (ranges : List (Nat × Nat × ℚ × ℚ)) (pos : Nat),
      ranges ≠ [] →
      (∀ r ∈ ranges, ¬(r.1 ≤ pos ∧ pos ≤ r.2.1)) →
      ∃ i, jump_to_transcript_char ranges pos = some i
        ∧ i < ranges.length
        ∧ ∀ j, j < ranges.length →
          midDist pos (ranges.getD i (0, 0, 0, 0))
            ≤ midDist pos (ranges.getD j (0, 0, 0, 0))) := by
  have H1 : ∀ (ranges : List (Nat × Nat × ℚ × ℚ)) (pos j : Nat),
      j < ranges.length →
      ((ranges.getD j (0, 0, 0, 0)).1 ≤ pos
        ∧ pos ≤ (ranges.getD j (0, 0, 0, 0)).2.1) →
      (∀ j', j' < j →
        ¬((ranges.getD j' (0, 0, 0, 0)).1 ≤ pos
          ∧ pos ≤ (ranges.getD j' (0, 0, 0, 0)).2.1)) →
      jump_to_transcript_char ranges pos = some j := by
    intro ranges pos j hj hcont hmin
    have hne : ranges ≠ [] := by
      intro h
      subst h
      simp at hj
    unfold jump_to_transcript_char
    rw [if_neg hne]
    have hfind := findFirstIdx_some
      (fun r => r.1 ≤ pos && pos ≤ r.2.1) ranges 0 j hj
      (by simp only [Bool.and_eq_true, decide_eq_true_eq]; exact hcont)
      (fun j' hj' => by
        rw [Bool.eq_false_iff]
        simp only [ne_eq, Bool.and_eq_true, decide_eq_true_eq]
        exact hmin j' hj')
    rw [hfind]
    simp
  refine ⟨H1, ?_, ?_⟩
  · intro ranges pos j hj hle hend hstart hmin
    exact H1 ranges pos j (by omega) ⟨hle, le_of_eq hend.symm⟩ hmin
  · intro ranges pos hne hnc
    unfold jump_to_transcript_char
    rw [if_neg hne]
    have hfind : findFirstIdx (fun r => r.1 ≤ pos && pos ≤ r.2.1) 0 ranges
        = none := by
      apply findFirstIdx_none
      intro x hx
      rw [Bool.eq_false_iff]
      simp only [ne_eq, Bool.and_eq_true, decide_eq_true_eq]
      exact hnc x hx
    rw [hfind]
    obtain ⟨r0, rs, rfl⟩ := List.exists_cons_of_ne_nil hne
    have hcand : (List.range (r0 :: rs).length).map (fun i =>
          (midDist pos ((r0 :: rs).getD i (0, 0, 0, 0)), i))
        = (midDist pos r0, 0)
          :: (List.range rs.length).map (fun i =>
            (midDist pos (rs.getD i (0, 0, 0, 0)), i + 1)) := by
      rw [show (r0 :: rs).length = rs.length + 1 from rfl,
        List.range_succ_eq_map, List.map_cons, List.map_map]
      rfl
    simp only []
    rw [hcand]
    have hmem := lexMinPair_mem
      ((List.range rs.length).map (fun i =>
        (midDist pos (rs.getD i (0, 0, 0, 0)), i + 1)))
      (midDist pos r0, 0)
    rw [← hcand] at hmem
    obtain ⟨i, hiR, hfi⟩ := List.mem_map.mp hmem
    have hilen : i < (r0 :: rs).length := List.mem_range.mp hiR
    have hsnd : (lexMinPair (midDist pos r0, 0)
        ((List.range rs.length).map (fun i =>
          (midDist pos (rs.getD i (0, 0, 0, 0)), i + 1)))).2 = i :=
      (congrArg Prod.snd hfi).symm
    have hfst : (lexMinPair (midDist pos r0, 0)
        ((List.range rs.length).map (fun i =>
          (midDist pos (rs.getD i (0, 0, 0, 0)), i + 1)))).1
        = midDist pos ((r0 :: rs).getD i (0, 0, 0, 0)) :=
      (congrArg Prod.fst hfi).symm
    refine ⟨(lexMinPair (midDist pos r0, 0)
        ((List.range rs.length).map (fun i =>
          (midDist pos (rs.getD i (0, 0, 0, 0)), i + 1)))).2, rfl,
      by rw [hsnd]; exact hilen, ?_⟩
    intro j hjlen
    rw [hsnd]
    obtain ⟨hmin1, hmin2⟩ := lexMinPair_min
      ((List.range rs.length).map (fun i =>
        (midDist pos (rs.getD i (0, 0, 0, 0)), i + 1)))
      (midDist pos r0, 0)
    have hall : ∀ c ∈ (List.range (r0 :: rs).length).map (fun i =>
        (midDist pos ((r0 :: rs).getD i (0, 0, 0, 0)), i)),
        (lexMinPair (midDist pos r0, 0)
          ((List.range rs.length).map (fun i =>
            (midDist pos (rs.getD i (0, 0, 0, 0)), i + 1)))).1 ≤ c.1 := by
      intro c hc
      rw [hcand] at hc
      rcases List.mem_cons.mp hc with rfl | hc'
      · exact hmin1
      · exact hmin2 c hc'
    have hj' := hall (midDist pos ((r0 :: rs).getD j (0, 0, 0, 0)), j)
      (List.mem_map.mpr ⟨j, List.mem_range.mpr hjlen, rfl⟩)
    rw [hfst] at hj'
    exact hj'

/-- C10 witness: the lookup theorem applied at a boundary click (position 6
shared by ranges (0,6) and (6,11) resolves to the earlier segment) and at a
gap click with no containing range. -/
theorem C10_witness :
    jump_to_transcript_char
        [(0, 6, 0, 1/2), (6, 11, 7/10, 11/10)] 6 = some 0
    ∧ ∃ i, jump_to_transcript_char [(0, 3, 0, 1), (10, 12, 2, 3)] 7 = some i
        ∧ i < ([(0, 3, 0, 1), (10, 12, 2, 3)]
            : List (Nat × Nat × ℚ × ℚ)).length
        ∧ ∀ j, j < ([(0, 3, 0, 1), (10, 12, 2, 3)]
            : List (Nat × Nat × ℚ × ℚ)).length →
          midDist 7 (([(0, 3, 0, 1), (10, 12, 2, 3)]
              : List (Nat × Nat × ℚ × ℚ)).getD i (0, 0, 0, 0))
            ≤ midDist 7 (([(0, 3, 0, 1), (10, 12, 2, 3)]
              : List (Nat × Nat × ℚ × ℚ)).getD j (0, 0, 0, 0)) :=
  ⟨C10_click_lookup.1 [(0, 6, 0, 1/2), (6, 11, 7/10, 11/10)] 6 0
      (by decide) (by decide) (fun j' h => absurd h (by omega)),
    C10_click_lookup.2.2 [(0, 3, 0, 1), (10, 12, 2, 3)] 7
      (by decide) (by decide)⟩
